import Mathlib

/-!
# Verification of the `rust_blockchain` repository

Shallow embedding of the core of the repository (src/block.rs, src/blockchain.rs,
src/cli.rs, src/tx.rs).  The SHA-256 digest (an external cryptographic collaborator)
is abstracted as a function `H : Enc → String` from canonical encodings to hex
strings; the bincode canonical serialization is embedded as the inductive `Enc`
(which records exactly the field order and structure that bincode freezes).
Components whose source file is not under src/ (transaction.rs, utxoset.rs,
errors.rs) are modelled from the specification text and marked as such in their
doc comments.
-/

set_option linter.unusedVariables false

/-- Spend reference carried by a transaction input (src/tx.rs, `TXInput`):
`txid`, `vout` (i32), `signature`, `pub_key` (byte vectors as lists of bytes). -/
structure TXInput where
  txid : String
  vout : Int
  signature : List Nat
  pub_key : List Nat
deriving DecidableEq

/-- A value unit owned by a public-key hash (src/tx.rs, `TXOutput`):
`value` (i32) and `pub_key_hash` (byte vector). -/
structure TXOutput where
  value : Int
  pub_key_hash : List Nat
deriving DecidableEq

/-- src/tx.rs `TXOutput::can_be_unlock_with`: ownership test by pubkey-hash equality. -/
def TXOutput.can_be_unlock_with (o : TXOutput) (unlocking_data : List Nat) : Bool :=
  o.pub_key_hash == unlocking_data

/-- Transaction shape exactly as consumed by src/blockchain.rs (`tx.id`, `tx.vin`,
`tx.vout`); the defining file transaction.rs is not under src/. -/
structure Transaction where
  id : String
  vin : List TXInput
  vout : List TXOutput
deriving DecidableEq

/-- Modelled from the spec: transaction.rs is not under src/.  Spec §4.1/§3: a
coinbase transaction is the reward-minting transaction produced by `new_coinbase`,
carrying one synthetic input that references no real output (empty previous txid,
output index -1, the note as filler data). -/
def Transaction.is_coinbase (t : Transaction) : Bool :=
  match t.vin with
  | [i] => i.txid == "" && i.vout == -1
  | _ => false

/-- Block structure (src/block.rs): `timestamp` (u128 milliseconds),
`transactions`, `prev_block_hash`, `hash`, `height` (usize), `nonce` (i32). -/
structure Block where
  timestamp : Nat
  transactions : List Transaction
  prev_block_hash : String
  hash : String
  height : Nat
  nonce : Int
deriving DecidableEq

/-- Canonical serialization values: the bincode data model restricted to the
shapes this program serializes.  Sequences (struct fields in declaration order,
vectors element by element) are spine-encoded with `cons`/`nil`; this spine is
the frozen byte-layout contract of §4.2/§6. -/
inductive Enc where
  | nat : Nat → Enc
  | int : Int → Enc
  | str : String → Enc
  | bytes : List Nat → Enc
  | nil : Enc
  | cons : Enc → Enc → Enc
deriving DecidableEq

/-- Encode a list of already-encoded values as an `Enc` spine. -/
def encList (f : α → Enc) : List α → Enc
  | [] => .nil
  | a :: l => .cons (f a) (encList f l)

/-- Decode an `Enc` spine element by element, failing if any element fails
(bincode decodes sequences element by element). -/
def decList (g : Enc → Option α) : Enc → Option (List α)
  | .nil => some []
  | .cons e rest =>
    match g e, decList g rest with
    | some a, some as => some (a :: as)
    | _, _ => none
  | _ => none

/-- Canonical encoding of a `TXInput` (field order of the Rust struct). -/
def TXInput.encode (i : TXInput) : Enc :=
  .cons (.str i.txid) (.cons (.int i.vout) (.cons (.bytes i.signature)
    (.cons (.bytes i.pub_key) .nil)))

/-- Decoder inverting `TXInput.encode`. -/
def TXInput.decode : Enc → Option TXInput
  | .cons (.str t) (.cons (.int v) (.cons (.bytes s) (.cons (.bytes p) .nil))) =>
    some ⟨t, v, s, p⟩
  | _ => none

/-- Canonical encoding of a `TXOutput` (field order of the Rust struct). -/
def TXOutput.encode (o : TXOutput) : Enc :=
  .cons (.int o.value) (.cons (.bytes o.pub_key_hash) .nil)

/-- Decoder inverting `TXOutput.encode`. -/
def TXOutput.decode : Enc → Option TXOutput
  | .cons (.int v) (.cons (.bytes p) .nil) => some ⟨v, p⟩
  | _ => none

/-- Canonical encoding of a `Transaction` (field order of the Rust struct). -/
def Transaction.encode (t : Transaction) : Enc :=
  .cons (.str t.id) (.cons (encList TXInput.encode t.vin)
    (.cons (encList TXOutput.encode t.vout) .nil))

/-- Decoder inverting `Transaction.encode`. -/
def Transaction.decode : Enc → Option Transaction
  | .cons (.str i) (.cons vin (.cons vout .nil)) =>
    match decList TXInput.decode vin, decList TXOutput.decode vout with
    | some is, some os => some ⟨i, is, os⟩
    | _, _ => none
  | _ => none

/-- src/block.rs `TARGET_HEXT`: the difficulty, the number of leading
hexadecimal characters of the digest that must be `'0'`. -/
def TARGET_HEXT : Nat := 4

/-- Canonical encoding of a whole `Block` (bincode serializes the six fields in
declaration order), used for persistence in the store. -/
def Block.encode (b : Block) : Enc :=
  .cons (.nat b.timestamp) (.cons (encList Transaction.encode b.transactions)
    (.cons (.str b.prev_block_hash) (.cons (.str b.hash)
      (.cons (.nat b.height) (.cons (.int b.nonce) .nil)))))

/-- Decoder inverting `Block.encode` (bincode deserialization of a stored block). -/
def Block.decode : Enc → Option Block
  | .cons (.nat ts) (.cons txs (.cons (.str prev) (.cons (.str h)
      (.cons (.nat ht) (.cons (.int n) .nil))))) =>
    match decList Transaction.decode txs with
    | some l => some ⟨ts, l, prev, h, ht, n⟩
    | none => none
  | _ => none

/-- src/block.rs `Block::prepare_hash_data`: the canonical byte encoding of the
tuple `(prev_block_hash, transactions, timestamp, TARGET_HEXT, nonce)`. -/
def Block.prepare_hash_data (b : Block) : Enc :=
  .cons (.str b.prev_block_hash) (.cons (encList Transaction.encode b.transactions)
    (.cons (.nat b.timestamp) (.cons (.nat TARGET_HEXT) (.cons (.int b.nonce) .nil))))

/-- The string of `TARGET_HEXT` `'0'` characters the digest is compared against
(src/block.rs `validate` builds it with `vec1.resize(TARGET_HEXT, '0' as u8)`). -/
def zeroTarget : String := String.mk (List.replicate TARGET_HEXT '0')

/-- src/block.rs `Block::validate`: recompute the digest of
`prepare_hash_data` and check that its first `TARGET_HEXT` hexadecimal
characters are all `'0'`.  `H` is the SHA-256 hex-digest collaborator. -/
def Block.validate (H : Enc → String) (b : Block) : Bool :=
  (H b.prepare_hash_data).take TARGET_HEXT == zeroTarget

/-- src/block.rs `Block::run_proof_of_work`: increment `nonce` until `validate`
holds, then store the digest into `hash`.  The Rust loop is unbounded; `fuel`
bounds the search in the embedding and `none` models a search that has not yet
terminated within `fuel` iterations. -/
def Block.powLoop (H : Enc → String) : Nat → Block → Option Block
  | 0, _ => none
  | fuel + 1, b =>
    if b.validate H then some { b with hash := H b.prepare_hash_data }
    else Block.powLoop H fuel { b with nonce := b.nonce + 1 }

/-- src/block.rs `Block::new_block`: build the unsealed block (empty hash,
nonce 0) and run the proof of work.  The creation timestamp is a parameter
(the Rust code reads the system clock). -/
def Block.new_block (H : Enc → String) (data : List Transaction)
    (prev_block_hash : String) (height : Nat) (timestamp fuel : Nat) : Option Block :=
  Block.powLoop H fuel
    { timestamp := timestamp, transactions := data,
      prev_block_hash := prev_block_hash, hash := "", height := height, nonce := 0 }

/-- src/block.rs `Block::new_genesis_block`: seal `[coinbase]` with empty
previous hash at height 0. -/
def Block.new_genesis_block (H : Enc → String) (coinbase : Transaction)
    (timestamp fuel : Nat) : Option Block :=
  Block.new_block H [coinbase] "" 0 timestamp fuel

/-- A trivial digest collaborator used to instantiate witnesses: every encoding
hashes to "0000", so the proof of work succeeds at nonce 0. -/
def hZero : Enc → String := fun _ => "0000"

/-! ## Persistent store and ledger operations (src/blockchain.rs) -/

/-- The sled key-value store modelled as an association list from keys to the
canonical serialization of the stored bytes; lookup returns the first binding
(later `storePut` bindings shadow earlier ones, like `sled::Db::insert`). -/
abbrev Store := List (String × Enc)

/-- First-match association-list lookup (used for the store and for the
`HashMap`s inside `find_utxo`). -/
def lookupA {α : Type} : List (String × α) → String → Option α
  | [], _ => none
  | (k, v) :: rest, key => if k = key then some v else lookupA rest key

/-- Replace the value bound to `key` at its first occurrence, keeping order. -/
def updateA {α : Type} : List (String × α) → String → α → List (String × α)
  | [], _, _ => []
  | (k, v) :: rest, key, w => if k = key then (k, w) :: rest else (k, v) :: updateA rest key w

/-- Remove the first binding for `key`. -/
def eraseA {α : Type} : List (String × α) → String → List (String × α)
  | [], _ => []
  | (k, v) :: rest, key => if k = key then rest else (k, v) :: eraseA rest key

/-- `sled::Db::insert`: later bindings shadow earlier ones under `lookupA`. -/
def storePut (db : Store) (k : String) (v : Enc) : Store := (k, v) :: db

/-- src/blockchain.rs `BlockchainIterator::next`: look up the current hash,
deserialize the stored bytes, yield the block and move the cursor to its
`prev_block_hash`; a missing or undeserializable entry ends the sequence
(`None`) instead of raising. -/
def iterStep (db : Store) (current : String) : Option (Block × String) :=
  match lookupA db current with
  | some e =>
    match Block.decode e with
    | some block => some (block, block.prev_block_hash)
    | none => none
  | none => none

/-- Run the iterator of src/blockchain.rs from cursor `cur`, collecting the
yielded blocks.  The Rust iterator is lazy and externally driven; `fuel` bounds
how many times `next` is called, so the list below is the full observable trace
whenever it ends before the fuel does. -/
def iterate (db : Store) : String → Nat → List Block
  | _, 0 => []
  | cur, fuel + 1 =>
    match iterStep db cur with
    | some (b, nxt) => b :: iterate db nxt fuel
    | none => []

/-- Error kinds of §7 of the spec that the embedded ledger operations can
surface, plus the outcomes the Rust code actually produces: `panicked` models a
process abort through `unwrap`/`expect`, `outOfFuel` models a proof-of-work
search that has not terminated within the given fuel, and `encodingErr` models
a `String::from_utf8` failure on the stored tip hash.  `uninitializedChain` is
the typed failure §7 prescribes for a missing tip pointer; the code in src/
never constructs it (errors.rs is not under src/). -/
inductive BcError where
  | panicked
  | uninitializedChain
  | encodingErr
  | outOfFuel
deriving DecidableEq

/-- src/blockchain.rs `Blockchain::add_block`: read the `"LAST"` tip pointer
(`unwrap` on a missing key panics, modelled by `.error .panicked`), seal a new
block via `Block::new_block(transactions, last_hash, TARGET_HEXT)` — note that
the source passes the difficulty constant `TARGET_HEXT` as the `height`
argument — then persist `hash → serialized block` and repoint `"LAST"`. -/
def Blockchain.add_block (H : Enc → String) (db : Store) (transactions : List Transaction)
    (ts fuel : Nat) : Except BcError (Block × Store) :=
  match lookupA db "LAST" with
  | none => .error .panicked
  | some (.str last_hash) =>
    match Block.new_block H transactions last_hash TARGET_HEXT ts fuel with
    | none => .error .outOfFuel
    | some nb => .ok (nb, storePut (storePut db nb.hash nb.encode) "LAST" (.str nb.hash))
  | some _ => .error .encodingErr

/-! ## The UTXO scan of src/blockchain.rs `Blockchain::find_utxo` -/

/-- The `utxos: HashMap<String, TXOutputs>` accumulator of `find_utxo`,
modelled as an association list read through `lookupA`. -/
abbrev UMap := List (String × List TXOutput)

/-- The `spend_txos: HashMap<String, Vec<i32>>` accumulator of `find_utxo`. -/
abbrev SMap := List (String × List Int)

/-- The `get_mut / push / insert` pattern the source uses on both `HashMap`
accumulators (and, in §4.4, on the UTXO index): append one element to the list
bound to `k`, creating the entry if absent. -/
def pushEntry {β : Type} (m : List (String × List β)) (k : String) (x : β) :
    List (String × List β) :=
  match lookupA m k with
  | some l => updateA m k (l ++ [x])
  | none => (k, [x]) :: m

/-- One transaction of the `find_utxo` scan: walk the output indices in order,
skipping those already recorded as spent for this transaction id, then (unless
the transaction is a coinbase) record every input as a spent reference. -/
def processTx (st : UMap × SMap) (tx : Transaction) : UMap × SMap :=
  let spentHere : List Int := (lookupA st.2 tx.id).getD []
  let u := (tx.vout.enum.foldl
    (fun u p => if decide ((p.1 : Int) ∈ spentHere) then u else pushEntry u tx.id p.2) st.1)
  let s := if tx.is_coinbase then st.2 else
    tx.vin.foldl (fun s i => pushEntry s i.txid i.vout) st.2
  (u, s)

/-- One block of the `find_utxo` scan (transactions in block order). -/
def processBlock (st : UMap × SMap) (b : Block) : UMap × SMap :=
  b.transactions.foldl processTx st

/-- The full scan of `find_utxo` over the list of blocks the iterator yields
(tip first, genesis last). -/
def utxoScan (blocksTipFirst : List Block) : UMap × SMap :=
  blocksTipFirst.foldl processBlock ([], [])

/-- src/blockchain.rs `Blockchain::find_utxo` evaluated on an intact chain:
`chain` lists the blocks genesis-first, and the backward iterator feeds them to
the scan tip-first (`chain.reverse`). -/
def findUtxo (chain : List Block) : UMap :=
  (utxoScan chain.reverse).1

/-! ## Spec-modelled incremental UTXO index (utxoset.rs is not under src/) -/

/-- The UTXO Index of §4.4, entry = transaction id mapped to its currently
unspent outputs.  Modelled from the spec: utxoset.rs is not under src/; each
output is stored together with its original output index so that "remove the
referenced output" (§4.4 `apply`) is well defined after earlier removals. -/
abbrev UtxoIdx := List (String × List (Nat × TXOutput))

/-- Forget the recorded output indices, leaving the plain output lists that
`find_utxo` produces. -/
def stripIdx : Option (List (Nat × TXOutput)) → Option (List TXOutput) :=
  Option.map (List.map Prod.snd)

/-- Modelled from the spec: §4.4 `apply` — "for every non-coinbase input in the
new block, remove the referenced output from the index (and drop the
transaction entry if it becomes empty)". -/
def removeRef (m : UtxoIdx) (k : String) (v : Int) : UtxoIdx :=
  match lookupA m k with
  | none => m
  | some outs =>
    let outs2 := outs.filter (fun p => !(decide ((p.1 : Int) = v)))
    if outs2.isEmpty then eraseA m k else updateA m k outs2

/-- Modelled from the spec: §4.4 `apply(new_block)`, the incremental per-block
update of the UTXO Index called right after `Ledger.append`: for every
non-coinbase input remove the referenced output (dropping emptied entries),
then add every output of the block's transactions under its transaction id. -/
def applyBlock (m : UtxoIdx) (b : Block) : UtxoIdx :=
  let m1 := b.transactions.foldl
    (fun m tx => if tx.is_coinbase then m
      else tx.vin.foldl (fun m i => removeRef m i.txid i.vout) m) m
  b.transactions.foldl (fun m tx => tx.vout.enum.foldl (fun m p => pushEntry m tx.id p) m) m1

/-- Start from an empty index and `apply` every block in forward,
genesis-to-tip order (§8, rebuild-equals-incremental property). -/
def applyAll (chain : List Block) : UtxoIdx :=
  chain.foldl applyBlock []

/-! ## Chain-shape predicates used as hypotheses -/

/-- All transactions of a chain, genesis-first, block order then tx order. -/
def chainTxs (chain : List Block) : List Transaction :=
  chain.flatMap (fun b => b.transactions)

/-- All transaction ids of a chain, in the same order. -/
def chainIds (chain : List Block) : List String :=
  (chainTxs chain).map (fun t => t.id)

/-- The spent references contributed by one transaction: every input of a
non-coinbase transaction, as a `(referenced txid, referenced output index)`
pair; coinbase transactions contribute none. -/
def txRefs (tx : Transaction) : List (String × Int) :=
  if tx.is_coinbase then [] else tx.vin.map (fun i => (i.txid, i.vout))

/-- The spent references contributed by one block, in scan order. -/
def blockRefs (b : Block) : List (String × Int) :=
  b.transactions.flatMap txRefs

/-- All spent references of a chain, genesis-first. -/
def chainRefs (chain : List Block) : List (String × Int) :=
  chain.flatMap blockRefs

/-- The output indices of transaction `key` referenced by the given reference
list, in order. -/
def refsAt (rs : List (String × Int)) (key : String) : List Int :=
  rs.filterMap (fun r => if r.1 = key then some r.2 else none)

/-- Every reference in a chain points to a transaction of a strictly earlier
block: block by block, the references of the head block hit no transaction id
of the head block or of any later block.  This holds for every chain the
program builds, because `new_transfer` only spends outputs already committed in
earlier blocks (§4.4). -/
def backRefsOnly : List Block → Bool
  | [] => true
  | b :: rest =>
    (blockRefs b).all (fun r => !(decide (r.1 ∈ chainIds (b :: rest)))) && backRefsOnly rest

/-- Generic entry shape shared by both UTXO index constructions: the enumerated
outputs of the owning transaction, minus the indices listed in `spent`; no
entry at all when nothing is left. -/
def entryF (base : List (Nat × TXOutput)) (spent : List Int) : Option (List (Nat × TXOutput)) :=
  let l := base.filter (fun p => !(decide ((p.1 : Int) ∈ spent)))
  if l.isEmpty then none else some l

/-- Closed-form characterization of the UTXO index entry for `key`: the outputs
of the unique transaction with id `key` whose index is referenced by no
non-coinbase input of the chain. -/
def mkEntryIdx (chain : List Block) (key : String) : Option (List (Nat × TXOutput)) :=
  match (chainTxs chain).find? (fun t => t.id == key) with
  | none => none
  | some t => entryF t.vout.enum (refsAt (chainRefs chain) key)

/-! ## Spec-modelled transaction construction and CLI send flow -/

/-- Error kind of §7 raised when the spendable total is below the requested
amount.  Modelled from the spec: errors.rs is not under src/. -/
inductive TxError where
  | insufficientFunds
deriving DecidableEq

/-- Modelled from the spec: the fixed reward value minted by `new_coinbase`
(§4.1); transaction.rs, which defines the constant, is not under src/. -/
def SUBSIDY : Int := 10

/-- Modelled from the spec: §4.1 `new_coinbase(reward_address, note)` —
one synthetic input (no real spend, the note as filler data) and one output of
the fixed reward value locked to the reward address; the id is the digest of
the content (`idH` is the digest collaborator).  transaction.rs is not under
src/. -/
def Transaction.new_coinbase (idH : Enc → String) (reward_pkh : List Nat)
    (data : List Nat) : Transaction :=
  let base : Transaction := ⟨"", [⟨"", -1, [], data⟩], [⟨SUBSIDY, reward_pkh⟩]⟩
  { base with id := idH base.encode }

/-- Modelled from the spec: §4.4 `find_spendable_outputs` accumulation step —
an output owned by `pkh` is selected while the running total is still below
`amount`. -/
def spendStep (pkh : List Nat) (amount : Int) (tid : String)
    (st : Int × List (String × Nat × Int)) (p : Nat × TXOutput) :
    Int × List (String × Nat × Int) :=
  if p.2.can_be_unlock_with pkh && decide (st.1 < amount) then
    (st.1 + p.2.value, st.2 ++ [(tid, p.1, p.2.value)])
  else st

/-- Modelled from the spec: §4.4 `find_spendable_outputs(pubkey_hash, amount)` —
iterate the indexed outputs in the index's (deterministic) order, accumulating
owned outputs until the running total reaches `amount` or the index is
exhausted; returns the accumulated total and the collected
`(tx_id, output_index, value)` tuples.  utxoset.rs is not under src/. -/
def find_spendable_outputs (idx : UtxoIdx) (pkh : List Nat) (amount : Int) :
    Int × List (String × Nat × Int) :=
  idx.foldl (fun st e => e.2.foldl (spendStep pkh amount e.1) st) (0, [])

/-- Modelled from the spec: §4.1 `new_transfer(from, to, amount, utxo_source)`
(`Transaction::new_utxo` in the source tree) — query `find_spendable_outputs`;
fail with `InsufficientFunds` when the available total is below `amount`;
otherwise build one input per selected output (signature blank), one output of
`amount` locked to `to`, and a change output when the selection overshoots.
transaction.rs is not under src/. -/
def Transaction.new_utxo (idH : Enc → String) (fromHash toHash fromPub : List Nat)
    (amount : Int) (idx : UtxoIdx) : Except TxError Transaction :=
  let r := find_spendable_outputs idx fromHash amount
  if decide (r.1 < amount) then .error .insufficientFunds
  else
    let vin := r.2.map (fun s => (⟨s.1, (s.2.1 : Int), [], fromPub⟩ : TXInput))
    let vout := (⟨amount, toHash⟩ : TXOutput) ::
      (if decide (amount < r.1) then [(⟨r.1 - amount, fromHash⟩ : TXOutput)] else [])
    let base : Transaction := ⟨"", vin, vout⟩
    .ok { base with id := idH base.encode }

/-- Outcome kinds of the CLI send flow. -/
inductive SendError where
  | insufficientFunds
  | panicked
  | encodingErr
  | outOfFuel
deriving DecidableEq

/-- src/cli.rs `run`, `send` subcommand (lines 97–104): build the transfer with
`Transaction::new_utxo` (the `?` on it returns before anything is written), then
a reward coinbase to the sender, append the block `[cbtx, tx]` and apply the
incremental index update.  The wallet and address codec collaborators are
abstracted into the already-derived pubkey hashes. -/
def Cli.sendFlow (H idH : Enc → String) (db : Store) (idx : UtxoIdx)
    (fromHash toHash fromPub : List Nat) (amount : Int) (ts fuel : Nat) :
    Except SendError Unit × Store × UtxoIdx :=
  match Transaction.new_utxo idH fromHash toHash fromPub amount idx with
  | .error .insufficientFunds => (.error .insufficientFunds, db, idx)
  | .ok tx =>
    let cbtx := Transaction.new_coinbase idH fromHash []
    match Blockchain.add_block H db [cbtx, tx] ts fuel with
    | .error _ => (.error .panicked, db, idx)
    | .ok (nb, db2) => (.ok (), db2, applyBlock idx nb)

/-- Sum of the values of all indexed outputs owned by `pkh` (§4.4 `balance`). -/
def ownedSum (idx : UtxoIdx) (pkh : List Nat) : Int :=
  (idx.map (fun e =>
    ((e.2.filter (fun p => p.2.can_be_unlock_with pkh)).map (fun p => p.2.value)).sum)).sum

/-- The value of the output referenced by an input, resolved through the UTXO
index (0 when the reference does not resolve). -/
def refValue (idx : UtxoIdx) (i : TXInput) : Int :=
  match lookupA idx i.txid with
  | some outs =>
    match outs.find? (fun p => decide ((p.1 : Int) = i.vout)) with
    | some p => p.2.value
    | none => 0
  | none => 0

/-! ## TXOutput locking (src/tx.rs) -/

/-- Outcomes of `TXOutput::new` as implemented: either the locked output, a
panic (the `unwrap` inside `lock` on an undecodable address), or the declared
`Result` error branch — which the code never takes. -/
inductive LockOutcome where
  | panicOnDecode
  | declaredErr
deriving DecidableEq

/-- src/tx.rs `TXOutput::lock`: `Address::decode(address).unwrap().body` — the
address codec collaborator is `decode`; a failing decode panics (`unwrap`)
instead of using the declared error branch. -/
def TXOutput.lock (decode : String → Option (List Nat)) (o : TXOutput)
    (address : String) : Except LockOutcome TXOutput :=
  match decode address with
  | some body => .ok { o with pub_key_hash := body }
  | none => .error .panicOnDecode

/-- src/tx.rs `TXOutput::new(value, address)`: build the output with an empty
`pub_key_hash` and lock it to `address`. -/
def TXOutput.new (decode : String → Option (List Nat)) (value : Int)
    (address : String) : Except LockOutcome TXOutput :=
  TXOutput.lock decode ⟨value, []⟩ address

/-! ## Concrete instances used by witnesses -/

/-- Concrete coinbase-shaped transaction for witnesses. -/
def cbW : Transaction := ⟨"cb", [⟨"", -1, [], [7]⟩], [⟨10, [1]⟩]⟩

/-- The genesis block `new_genesis_block` seals under `hZero` at timestamp 0. -/
def genW : Block := ⟨0, [cbW], "", "0000", 0, 0⟩

/-- A store holding exactly the genesis block and the tip pointer. -/
def dbW : Store := [("LAST", Enc.str "0000"), ("0000", genW.encode)]

/-- Append under an optional entry, creating it when needed: the observable
effect of folding `pushEntry` on the entry of one key. -/
def optAppend {β : Type} (o : Option (List β)) (xs : List β) : Option (List β) :=
  match o with
  | some l => some (l ++ xs)
  | none => if xs.isEmpty then none else some xs

/-- The effect of one §4.4 removal on the entry of the removed key: filter the
referenced index out, dropping the entry when it empties (or stays absent). -/
def remStep (o : Option (List (Nat × TXOutput))) (v : Int) : Option (List (Nat × TXOutput)) :=
  match o with
  | none => none
  | some outs =>
    let outs2 := outs.filter (fun p => !(decide ((p.1 : Int) = v)))
    if outs2.isEmpty then none else some outs2

/-- Transaction ids are pairwise distinct across the chain.  This holds for
every chain the program builds, because ids are content digests (§3). -/
def UniqueIds (chain : List Block) : Prop := (chainIds chain).Nodup

/-- Keys of an association-list map are pairwise distinct. -/
def nodupKeys {α : Type} (m : List (String × α)) : Prop := (m.map Prod.fst).Nodup

/-- Walking the store from cursor `start` yields exactly the blocks `bs` (each
found under the cursor and serialized intact) and leaves the cursor at `stop`:
the store-side description of an intact chain segment as the iterator sees it. -/
def walkOK (db : Store) : String → List Block → String → Bool
  | start, [], stop => decide (start = stop)
  | start, b :: bs, stop =>
    decide (lookupA db start = some b.encode) && walkOK db b.prev_block_hash bs stop

/-- Modelled from the spec: §7 `CorruptChain` — "iteration terminates before
reaching a genesis block" (errors.rs is not under src/; the iterator itself
surfaces no error value, so the signal a caller can observe is exactly that the
yielded sequence does not end at a block with empty `prev_hash`). -/
def corruptChainSignal (trace : List Block) : Bool :=
  match trace.getLast? with
  | some b => decide (b.prev_block_hash ≠ "")
  | none => true

/-- Concrete address codec for witnesses. -/
def decW : String → Option (List Nat) := fun s => if s = "addr" then some [1, 2] else none

/-- Concrete non-genesis block for the iteration witness, linked to `genW`. -/
def blkB : Block := ⟨1, [], "0000", "h1", 1, 0⟩

/-- Store holding the two-block chain `[genW, blkB]` for the iteration witness. -/
def dbC5 : Store := [("LAST", Enc.str "h1"), ("h1", blkB.encode), ("0000", genW.encode)]

/-- Tip block of the corruption witness, whose predecessor entry is corrupt. -/
def blkC : Block := ⟨2, [], "h1", "h2", 2, 0⟩

/-- Store for the corruption witness: the tip block is intact but the bytes
stored under its predecessor hash "h1" do not deserialize to a block. -/
def dbC9 : Store := [("h2", blkC.encode), ("h1", Enc.nat 0)]

/-- Store for the missing-entry half of the corruption witness: the tip block
is intact but no entry at all is stored under its predecessor hash "h1". -/
def dbC9m : Store := [("h2", blkC.encode)]

/-- Concrete UTXO index for the transfer witnesses: one transaction with two
outputs of values 5 and 4, both owned by pubkey hash `[1]`. -/
def idxW : UtxoIdx := [("t1", [(0, ⟨5, [1]⟩), (1, ⟨4, [1]⟩)])]

/-- The transfer `new_utxo hZero [1] [2] [9] 6 idxW` builds: both indexed
outputs selected (5 + 4 = 9 ≥ 6), amount 6 to `[2]`, change 3 back to `[1]`. -/
def txW : Transaction :=
  ⟨"0000", [⟨"t1", 0, [], [9]⟩, ⟨"t1", 1, [], [9]⟩], [⟨6, [2]⟩, ⟨3, [1]⟩]⟩

/-- Second coinbase-shaped transaction for the chain witnesses. -/
def cb2 : Transaction := ⟨"cb2", [⟨"", -1, [], [8]⟩], [⟨10, [1]⟩]⟩

/-- A transfer spending output 0 of `cbW` (the genesis coinbase). -/
def txT : Transaction := ⟨"t1", [⟨"cb", 0, [], [1]⟩], [⟨6, [2]⟩, ⟨4, [1]⟩]⟩

/-- Second block of the chain witnesses: a reward coinbase plus the transfer. -/
def blk2 : Block := ⟨1, [cb2, txT], "0000", "h1", 4, 0⟩

/-- Two-block chain (genesis first) for the UTXO-index witnesses. -/
def chainW : List Block := [genW, blk2]

/-! ## Round-trip lemmas for the canonical serialization -/

@[simp] theorem txinput_roundtrip (i : TXInput) : TXInput.decode i.encode = some i := rfl

@[simp] theorem txoutput_roundtrip (o : TXOutput) : TXOutput.decode o.encode = some o := rfl

theorem decList_encList {α : Type} (f : α → Enc) (g : Enc → Option α)
    (h : ∀ a, g (f a) = some a) : ∀ l : List α, decList g (encList f l) = some l
  | [] => rfl
  | a :: l => by
    simp only [encList, decList, h a, decList_encList f g h l]

@[simp] theorem transaction_roundtrip (t : Transaction) :
    Transaction.decode t.encode = some t := by
  simp only [Transaction.encode, Transaction.decode,
    decList_encList TXInput.encode TXInput.decode txinput_roundtrip,
    decList_encList TXOutput.encode TXOutput.decode txoutput_roundtrip]

@[simp] theorem block_roundtrip (b : Block) : Block.decode b.encode = some b := by
  simp only [Block.encode, Block.decode,
    decList_encList Transaction.encode Transaction.decode transaction_roundtrip]

/-! ## Proof-of-work lemmas -/

theorem Block.validate_hash_irrelevant (H : Enc → String) (ts : Nat)
    (txs : List Transaction) (prev h h' : String) (ht : Nat) (n : Int) :
    Block.validate H ⟨ts, txs, prev, h, ht, n⟩ = Block.validate H ⟨ts, txs, prev, h', ht, n⟩ := rfl

theorem Block.powLoop_some (H : Enc → String) :
    ∀ (fuel ts : Nat) (txs : List Transaction) (prev h0 : String) (ht : Nat) (n : Int)
      (b' : Block), Block.powLoop H fuel ⟨ts, txs, prev, h0, ht, n⟩ = some b' →
      ∃ k : Nat,
        b' = ⟨ts, txs, prev,
              H (Block.prepare_hash_data ⟨ts, txs, prev, h0, ht, n + k⟩), ht, n + k⟩ ∧
        Block.validate H ⟨ts, txs, prev, h0, ht, n + k⟩ = true ∧
        ∀ j : Nat, j < k → Block.validate H ⟨ts, txs, prev, h0, ht, n + j⟩ = false := by
  intro fuel
  induction fuel with
  | zero => intro ts txs prev h0 ht n b' h; simp [Block.powLoop] at h
  | succ m ih =>
    intro ts txs prev h0 ht n b' h
    by_cases hv : Block.validate H ⟨ts, txs, prev, h0, ht, n⟩ = true
    · refine ⟨0, ?_, by simpa using hv, by intro j hj; omega⟩
      rw [Block.powLoop, if_pos hv] at h
      simpa using h.symm
    · rw [Block.powLoop, if_neg hv] at h
      obtain ⟨k, hb', hvk, hmin⟩ := ih ts txs prev h0 ht (n + 1) b' h
      have harith : n + 1 + (k : Int) = n + ((k : Int) + 1) := by ring
      refine ⟨k + 1, ?_, ?_, ?_⟩
      · rw [hb']; push_cast; rw [harith]
      · have := hvk; rw [harith] at this; push_cast; exact this
      · intro j hj
        match j with
        | 0 => simpa using eq_false_of_ne_true hv
        | j + 1 =>
          have := hmin j (by omega)
          have ha : n + 1 + (j : Int) = n + ((j : Int) + 1) := by ring
          rw [ha] at this; push_cast; exact this


/-! ## Claim C1: sealed blocks validate, also after a round-trip -/

/-- C1: every block produced by sealing (`Block::new_block` /
`new_genesis_block`) validates immediately after sealing and after a
serialize/deserialize round-trip: the digest of the canonical encoding of
`(prev_hash, transactions, timestamp, difficulty, nonce)` has its first
`TARGET_HEXT` (= 4) hexadecimal characters equal to `'0'`, the nonce was
searched by incrementing from 0 (it is the least valid nonce), and the stored
`hash` equals that digest. -/
theorem c1_sealed_blocks_validate (H : Enc → String) (data : List Transaction)
    (prev : String) (height ts fuel : Nat) (b : Block)
    (h : Block.new_block H data prev height ts fuel = some b) :
    b.validate H = true ∧
    (H b.prepare_hash_data).take TARGET_HEXT = zeroTarget ∧
    b.hash = H b.prepare_hash_data ∧
    Block.decode b.encode = some b ∧
    0 ≤ b.nonce ∧
    (∀ j : Int, 0 ≤ j → j < b.nonce →
      Block.validate H ⟨ts, data, prev, b.hash, height, j⟩ = false) ∧
    TARGET_HEXT = 4 := by
  obtain ⟨k, hb, hval, hmin⟩ := Block.powLoop_some H fuel ts data prev "" height 0 b h
  subst hb
  simp only [zero_add] at hval hmin ⊢
  have h1 : Block.validate H
      ⟨ts, data, prev,
        H (Block.prepare_hash_data ⟨ts, data, prev, "", height, (k : Int)⟩), height, (k : Int)⟩
      = true := by
    rw [Block.validate_hash_irrelevant H ts data prev _ "" height (k : Int)]
    exact hval
  refine ⟨h1, ?_, rfl, block_roundtrip _, Int.natCast_nonneg k, ?_, rfl⟩
  · have := h1
    rw [Block.validate, beq_iff_eq] at this
    exact this
  · intro j hj0 hjk
    have hjn : j = ((j.toNat : Nat) : Int) := (Int.toNat_of_nonneg hj0).symm
    have hlt : j.toNat < k := by omega
    have := hmin j.toNat hlt
    rw [Block.validate_hash_irrelevant H ts data prev _ "" height j, hjn]
    exact this

/-- C1 witness: under the trivial digest `hZero` the search succeeds at once
and all conclusions hold for the concrete sealed block. -/
theorem c1_witness :
    Block.validate hZero ⟨5, [], "p", "0000", 1, 0⟩ = true ∧
    (hZero (Block.prepare_hash_data ⟨5, [], "p", "0000", 1, 0⟩)).take TARGET_HEXT = zeroTarget ∧
    Block.hash ⟨5, [], "p", "0000", 1, 0⟩ = hZero (Block.prepare_hash_data ⟨5, [], "p", "0000", 1, 0⟩) ∧
    Block.decode (Block.encode ⟨5, [], "p", "0000", 1, 0⟩) = some ⟨5, [], "p", "0000", 1, 0⟩ ∧
    0 ≤ Block.nonce ⟨5, [], "p", "0000", 1, 0⟩ ∧
    (∀ j : Int, 0 ≤ j → j < Block.nonce ⟨5, [], "p", "0000", 1, 0⟩ →
      Block.validate hZero ⟨5, [], "p", "0000", 1, j⟩ = false) ∧
    TARGET_HEXT = 4 :=
  c1_sealed_blocks_validate hZero [] "p" 1 5 1 ⟨5, [], "p", "0000", 1, 0⟩ rfl

/-! ## Claim C2: appended block heights (code bug) -/

/-- C2, evaluated at the failing input: the genesis block does have
`prev_hash = ""` and `height = 0`, but `Blockchain::add_block` on a chain whose
tip is the genesis block (height 0) produces a block of height `TARGET_HEXT`
(= 4), not `0 + 1`, because src/blockchain.rs line 68 passes the difficulty
constant `TARGET_HEXT` as the `height` argument of `Block::new_block`. -/
theorem c2_add_block_height_is_difficulty :
    Block.new_genesis_block hZero cbW 0 1 = some genW ∧
    genW.prev_block_hash = "" ∧
    genW.height = 0 ∧
    (Blockchain.add_block hZero dbW [] 1 1).toOption.map (fun p => p.1.height)
      = some TARGET_HEXT ∧
    TARGET_HEXT ≠ genW.height + 1 := by
  refine ⟨rfl, rfl, rfl, rfl, by decide⟩

/-! ## Claim C4: missing tip pointer (code bug) -/

/-- C4, evaluated at the failing input: on a store with no `"LAST"` key,
`Blockchain::add_block` panics (`Option::unwrap` on `None`) instead of
returning the typed `UninitializedChain` failure §7 prescribes. -/
theorem c4_missing_tip_panics :
    Blockchain.add_block hZero ([] : Store) [] 0 1 = .error .panicked ∧
    BcError.panicked ≠ BcError.uninitializedChain :=
  ⟨rfl, by decide⟩

/-! ## Claim C10: TXOutput::new / lock behavior -/

/-- C10: `TXOutput::new(value, address)` returns `Ok` exactly when the address
decodes, and then the output's `pub_key_hash` is the decoded body; on an
undecodable address it panics through the `unwrap` inside `lock`, so the
declared error branch of its `Result` is never taken. -/
theorem c10_txoutput_new_lock (decode : String → Option (List Nat))
    (value : Int) (address : String) :
    (∀ body, decode address = some body →
      TXOutput.new decode value address = .ok ⟨value, body⟩) ∧
    (decode address = none →
      TXOutput.new decode value address = .error .panicOnDecode) ∧
    (∀ e, TXOutput.new decode value address = .error e → e = .panicOnDecode) := by
  refine ⟨?_, ?_, ?_⟩
  · intro body hb
    simp [TXOutput.new, TXOutput.lock, hb]
  · intro hb
    simp [TXOutput.new, TXOutput.lock, hb]
  · intro e he
    cases hd : decode address with
    | none =>
      simp [TXOutput.new, TXOutput.lock, hd] at he
      exact he.symm
    | some body =>
      simp [TXOutput.new, TXOutput.lock, hd] at he

/-- C10 witness: a concrete codec, one decodable and one undecodable address. -/
theorem c10_witness :
    TXOutput.new decW 5 "addr" = .ok ⟨5, [1, 2]⟩ ∧
    TXOutput.new decW 5 "bad" = .error .panicOnDecode :=
  ⟨(c10_txoutput_new_lock decW 5 "addr").1 [1, 2] rfl,
   (c10_txoutput_new_lock decW 5 "bad").2.1 rfl⟩

/-! ## Iterator lemmas (src/blockchain.rs `BlockchainIterator::next`) -/

theorem iterate_of_lookup_none (db : Store) (cur : String)
    (h : lookupA db cur = none) : ∀ fuel, iterate db cur fuel = [] := by
  intro fuel
  cases fuel with
  | zero => rfl
  | succ n => simp [iterate, iterStep, h]

theorem iterate_of_decode_none (db : Store) (cur : String) (e : Enc)
    (h : lookupA db cur = some e) (hd : Block.decode e = none) :
    ∀ fuel, iterate db cur fuel = [] := by
  intro fuel
  cases fuel with
  | zero => rfl
  | succ n => simp [iterate, iterStep, h, hd]

theorem iterate_walk (db : Store) :
    ∀ (bs : List Block) (start stop : String) (fuel : Nat),
      walkOK db start bs stop = true →
      iterate db start (bs.length + fuel) = bs ++ iterate db stop fuel := by
  intro bs
  induction bs with
  | nil =>
    intro start stop fuel hw
    have : start = stop := by simpa [walkOK] using hw
    simp [this]
  | cons b bs ih =>
    intro start stop fuel hw
    rw [walkOK, Bool.and_eq_true, decide_eq_true_eq] at hw
    obtain ⟨hlook, hrest⟩ := hw
    have hlen : (b :: bs).length + fuel = (bs.length + fuel) + 1 := by
      simp [List.length_cons]; omega
    rw [hlen]
    have hstep : iterStep db start = some (b, b.prev_block_hash) := by
      simp [iterStep, hlook]
    have hone : iterate db start ((bs.length + fuel) + 1)
        = b :: iterate db b.prev_block_hash (bs.length + fuel) := by
      rw [iterate, hstep]
    rw [hone, ih b.prev_block_hash stop fuel hrest]
    rfl

theorem walkOK_last (db : Store) :
    ∀ (bs : List Block) (start stop : String) (b : Block),
      walkOK db start bs stop = true → bs.getLast? = some b →
      b.prev_block_hash = stop := by
  intro bs
  induction bs with
  | nil => intro start stop b _ hl; simp at hl
  | cons c cs ih =>
    intro start stop b hw hl
    rw [walkOK, Bool.and_eq_true] at hw
    cases cs with
    | nil =>
      simp at hl
      subst hl
      simpa [walkOK] using hw.2
    | cons d ds =>
      have : (d :: ds).getLast? = some b := by
        simpa [List.getLast?_cons_cons] using hl
      exact ih c.prev_block_hash stop b hw.2 this

/-! ## Claim C5: iteration over an intact appended chain -/

/-- C5: over an intact chain — genesis `g` plus `bs` appended blocks, stored
intact with the tip cursor walking back through every block to the empty
string — `iterate` from the tip yields exactly the `bs.length + 1` blocks in
backward order, the last of which is the genesis block (empty `prev_hash`).
The iterator is a pure function of the store and the tip cursor captured at
creation, so a fresh `iter()` call at the same tip repeats this trace. -/
theorem c5_iterate_yields_chain (db : Store) (g : Block) (bs : List Block)
    (tip : String) (fuel : Nat)
    (hwalk : walkOK db tip ((g :: bs).reverse) "" = true)
    (hnone : lookupA db "" = none)
    (hfuel : bs.length + 1 ≤ fuel) :
    iterate db tip fuel = (g :: bs).reverse ∧
    (iterate db tip fuel).length = bs.length + 1 ∧
    (iterate db tip fuel).getLast? = some g ∧
    g.prev_block_hash = "" := by
  obtain ⟨k, hk⟩ : ∃ k, fuel = (g :: bs).reverse.length + k := by
    refine ⟨fuel - (bs.length + 1), ?_⟩
    simp [List.length_reverse]
    omega
  subst hk
  have hiter := iterate_walk db ((g :: bs).reverse) tip "" k hwalk
  rw [iterate_of_lookup_none db "" hnone k, List.append_nil] at hiter
  have hgl : ((g :: bs).reverse).getLast? = some g := by
    rw [List.getLast?_reverse]
    rfl
  refine ⟨hiter, ?_, ?_, ?_⟩
  · rw [hiter]; simp
  · rw [hiter]; exact hgl
  · exact walkOK_last db ((g :: bs).reverse) tip "" g hwalk hgl

/-- C5 witness: the concrete two-block chain `[genW, blkB]` in store `dbC5`. -/
theorem c5_witness :
    iterate dbC5 "h1" 2 = ([genW, blkB] : List Block).reverse ∧
    (iterate dbC5 "h1" 2).length = 1 + 1 ∧
    (iterate dbC5 "h1" 2).getLast? = some genW ∧
    genW.prev_block_hash = "" := by
  have h := c5_iterate_yields_chain dbC5 genW [blkB] "h1" 2 (by decide) (by decide)
    (by decide)
  simpa using h

/-! ## Claim C9: corruption truncates the iteration -/

/-- C9: when the entry stored for a non-tip block is corrupted — present but
undeserializable — or missing altogether, iteration yields exactly the blocks
above the corruption point, terminates normally instead of crashing or
raising, and the trace shows the `CorruptChain` condition of §7: it ends at a
block whose `prev_hash` is not empty, i.e. before reaching a genesis block. -/
theorem c9_corrupt_chain_truncates (db : Store) (bs : List Block)
    (tip badHash : String) (fuel : Nat)
    (hwalk : walkOK db tip bs badHash = true)
    (hne : bs ≠ [])
    (hbadHash : badHash ≠ "")
    (hbad : lookupA db badHash = none ∨
      ∃ e, lookupA db badHash = some e ∧ Block.decode e = none)
    (hfuel : bs.length ≤ fuel) :
    iterate db tip fuel = bs ∧
    corruptChainSignal (iterate db tip fuel) = true := by
  obtain ⟨k, hk⟩ : ∃ k, fuel = bs.length + k := ⟨fuel - bs.length, by omega⟩
  subst hk
  have hiter := iterate_walk db bs tip badHash k hwalk
  have hnil : iterate db badHash k = [] := by
    rcases hbad with hm | ⟨e, he, hd⟩
    · exact iterate_of_lookup_none db badHash hm k
    · exact iterate_of_decode_none db badHash e he hd k
  rw [hnil, List.append_nil] at hiter
  refine ⟨hiter, ?_⟩
  obtain ⟨b, hb⟩ : ∃ b, bs.getLast? = some b := by
    cases hgl : bs.getLast? with
    | none => exact absurd (List.getLast?_eq_none_iff.mp hgl) hne
    | some b => exact ⟨b, rfl⟩
  have hprev := walkOK_last db bs tip badHash b hwalk hb
  rw [hiter, corruptChainSignal, hb]
  simp [hprev, hbadHash]

/-- C9 witness, both halves of the antecedent: in `dbC9` the predecessor entry
under "h1" is present but undeserializable, in `dbC9m` it is missing; either
way iteration truncates at the intact tip `blkC` and signals corruption. -/
theorem c9_witness :
    (iterate dbC9 "h2" 1 = [blkC] ∧
      corruptChainSignal (iterate dbC9 "h2" 1) = true) ∧
    (iterate dbC9m "h2" 1 = [blkC] ∧
      corruptChainSignal (iterate dbC9m "h2" 1) = true) :=
  ⟨c9_corrupt_chain_truncates dbC9 [blkC] "h2" "h1" 1
      (by decide) (by decide) (by decide)
      (Or.inr ⟨Enc.nat 0, by decide, by decide⟩) (by decide),
   c9_corrupt_chain_truncates dbC9m [blkC] "h2" "h1" 1
      (by decide) (by decide) (by decide)
      (Or.inl (by decide)) (by decide)⟩

/-! ## Spendable-output selection lemmas (§4.4) -/

theorem spend_inner_sum (pkh : List Nat) (amount : Int) (tid : String) :
    ∀ (outs : List (Nat × TXOutput)) (st : Int × List (String × Nat × Int)),
      st.1 = (st.2.map (fun s => s.2.2)).sum →
      (outs.foldl (spendStep pkh amount tid) st).1
        = ((outs.foldl (spendStep pkh amount tid) st).2.map (fun s => s.2.2)).sum := by
  intro outs
  induction outs with
  | nil => intro st h; simpa using h
  | cons p rest ih =>
    intro st h
    rw [List.foldl_cons]
    refine ih _ ?_
    by_cases hc : (p.2.can_be_unlock_with pkh && decide (st.1 < amount)) = true
    · simp only [spendStep, hc, if_true]
      simp [h]
    · simp only [spendStep, hc, if_false]
      exact h

theorem spend_fold_sum (pkh : List Nat) (amount : Int) :
    ∀ (idx : UtxoIdx) (st : Int × List (String × Nat × Int)),
      st.1 = (st.2.map (fun s => s.2.2)).sum →
      (idx.foldl (fun st e => e.2.foldl (spendStep pkh amount e.1) st) st).1
        = ((idx.foldl (fun st e => e.2.foldl (spendStep pkh amount e.1) st) st).2.map
            (fun s => s.2.2)).sum := by
  intro idx
  induction idx with
  | nil => intro st h; simpa using h
  | cons e rest ih =>
    intro st h
    rw [List.foldl_cons]
    exact ih _ (spend_inner_sum pkh amount e.1 e.2 st h)

theorem spend_sum (idx : UtxoIdx) (pkh : List Nat) (amount : Int) :
    (find_spendable_outputs idx pkh amount).1
      = ((find_spendable_outputs idx pkh amount).2.map (fun s => s.2.2)).sum :=
  spend_fold_sum pkh amount idx (0, []) (by simp)

theorem spend_inner_le (pkh : List Nat) (amount : Int) (tid : String) :
    ∀ (outs : List (Nat × TXOutput)) (st : Int × List (String × Nat × Int)),
      (∀ p ∈ outs, 0 ≤ p.2.value) →
      (outs.foldl (spendStep pkh amount tid) st).1
        ≤ st.1 + ((outs.filter (fun p => p.2.can_be_unlock_with pkh)).map
            (fun p => p.2.value)).sum := by
  intro outs
  induction outs with
  | nil => intro st _; simp
  | cons p rest ih =>
    intro st hv
    have hvp : 0 ≤ p.2.value := hv p (List.mem_cons_self p rest)
    have hvr : ∀ q ∈ rest, 0 ≤ q.2.value := fun q hq => hv q (List.mem_cons_of_mem p hq)
    rw [List.foldl_cons]
    by_cases how : p.2.can_be_unlock_with pkh = true
    · have hfc : (p :: rest).filter (fun q => q.2.can_be_unlock_with pkh)
          = p :: rest.filter (fun q => q.2.can_be_unlock_with pkh) := by
        simp [List.filter_cons, how]
      rw [hfc, List.map_cons, List.sum_cons]
      by_cases hlt : decide (st.1 < amount) = true
      · have hstep : spendStep pkh amount tid st p
            = (st.1 + p.2.value, st.2 ++ [(tid, p.1, p.2.value)]) := by
          simp [spendStep, how, hlt]
        rw [hstep]
        have := ih (st.1 + p.2.value, st.2 ++ [(tid, p.1, p.2.value)]) hvr
        calc (rest.foldl (spendStep pkh amount tid)
                (st.1 + p.2.value, st.2 ++ [(tid, p.1, p.2.value)])).1
            ≤ st.1 + p.2.value + ((rest.filter (fun p => p.2.can_be_unlock_with pkh)).map
                (fun p => p.2.value)).sum := this
          _ = st.1 + (p.2.value + ((rest.filter (fun p => p.2.can_be_unlock_with pkh)).map
                (fun p => p.2.value)).sum) := by ring
      · have hstep : spendStep pkh amount tid st p = st := by
          simp [spendStep, hlt]
        rw [hstep]
        have := ih st hvr
        have hmono : st.1 + ((rest.filter (fun p => p.2.can_be_unlock_with pkh)).map
            (fun p => p.2.value)).sum
            ≤ st.1 + (p.2.value + ((rest.filter (fun p => p.2.can_be_unlock_with pkh)).map
              (fun p => p.2.value)).sum) := by
          have := hvp; omega
        exact le_trans this hmono
    · have hstep : spendStep pkh amount tid st p = st := by
        simp [spendStep, how]
      have hfc : (p :: rest).filter (fun q => q.2.can_be_unlock_with pkh)
          = rest.filter (fun q => q.2.can_be_unlock_with pkh) := by
        simp [List.filter_cons, how]
      rw [hstep, hfc]
      exact ih st hvr

theorem spend_le_ownedSum (pkh : List Nat) (amount : Int) :
    ∀ (idx : UtxoIdx) (st : Int × List (String × Nat × Int)),
      (∀ e ∈ idx, ∀ p ∈ e.2, 0 ≤ p.2.value) →
      (idx.foldl (fun st e => e.2.foldl (spendStep pkh amount e.1) st) st).1
        ≤ st.1 + ownedSum idx pkh := by
  intro idx
  induction idx with
  | nil => intro st _; simp [ownedSum]
  | cons e rest ih =>
    intro st hv
    have hrow := spend_inner_le pkh amount e.1 e.2 st
      (fun p hp => hv e (List.mem_cons_self e rest) p hp)
    have hrest := ih (e.2.foldl (spendStep pkh amount e.1) st)
      (fun f hf p hp => hv f (List.mem_cons_of_mem e hf) p hp)
    rw [List.foldl_cons]
    have hsum : ownedSum (e :: rest) pkh
        = ((e.2.filter (fun p => p.2.can_be_unlock_with pkh)).map
            (fun p => p.2.value)).sum + ownedSum rest pkh := by
      simp [ownedSum]
    rw [hsum]
    calc (rest.foldl (fun st e => e.2.foldl (spendStep pkh amount e.1) st)
            (e.2.foldl (spendStep pkh amount e.1) st)).1
        ≤ (e.2.foldl (spendStep pkh amount e.1) st).1 + ownedSum rest pkh := hrest
      _ ≤ st.1 + ((e.2.filter (fun p => p.2.can_be_unlock_with pkh)).map
            (fun p => p.2.value)).sum + ownedSum rest pkh := by
          exact add_le_add_right hrow _
      _ = st.1 + (((e.2.filter (fun p => p.2.can_be_unlock_with pkh)).map
            (fun p => p.2.value)).sum + ownedSum rest pkh) := by ring

/-! ## Claim C6: insufficient funds leaves ledger and index untouched -/

/-- C6: when the requested amount exceeds the total value of indexed outputs
owned by the sender, `Transaction::new_utxo` fails with `InsufficientFunds`,
and the CLI send flow returns that failure with the store and the UTXO index
exactly as they were (the `?` on `new_utxo` returns before `add_block` or the
index update run). -/
theorem c6_insufficient_funds_no_mutation (H idH : Enc → String) (db : Store)
    (idx : UtxoIdx) (fromHash toHash fromPub : List Nat) (amount : Int) (ts fuel : Nat)
    (hvals : ∀ e ∈ idx, ∀ p ∈ e.2, 0 ≤ p.2.value)
    (hlt : ownedSum idx fromHash < amount) :
    Transaction.new_utxo idH fromHash toHash fromPub amount idx
      = .error .insufficientFunds ∧
    Cli.sendFlow H idH db idx fromHash toHash fromPub amount ts fuel
      = (.error .insufficientFunds, db, idx) := by
  have htot : (find_spendable_outputs idx fromHash amount).1 < amount := by
    have hle := spend_le_ownedSum fromHash amount idx (0, []) hvals
    simp only [find_spendable_outputs]
    omega
  have hnu : Transaction.new_utxo idH fromHash toHash fromPub amount idx
      = .error .insufficientFunds := by
    simp [Transaction.new_utxo, htot]
  exact ⟨hnu, by simp [Cli.sendFlow, hnu]⟩

/-- C6 witness: the index `idxW` holds 9 units for owner `[1]`; a transfer of
10 fails and changes nothing. -/
theorem c6_witness :
    Transaction.new_utxo hZero [1] [2] [9] 10 idxW = .error .insufficientFunds ∧
    Cli.sendFlow hZero hZero ([] : Store) idxW [1] [2] [9] 10 0 1
      = (.error .insufficientFunds, ([] : Store), idxW) :=
  c6_insufficient_funds_no_mutation hZero hZero [] idxW [1] [2] [9] 10 0 1
    (by decide) (by decide)

/-! ## Selection soundness and claim C8 (value conservation) -/

theorem spend_inner_mem (pkh : List Nat) (amount : Int) (tid : String) :
    ∀ (outs : List (Nat × TXOutput)) (st : Int × List (String × Nat × Int))
      (x : String × Nat × Int),
      x ∈ (outs.foldl (spendStep pkh amount tid) st).2 →
      x ∈ st.2 ∨ ∃ p ∈ outs, x = (tid, p.1, p.2.value) := by
  intro outs
  induction outs with
  | nil => intro st x hx; exact Or.inl hx
  | cons p rest ih =>
    intro st x hx
    rw [List.foldl_cons] at hx
    rcases ih (spendStep pkh amount tid st p) x hx with hmem | ⟨q, hq, hxq⟩
    · by_cases hc : (p.2.can_be_unlock_with pkh && decide (st.1 < amount)) = true
      · rw [spendStep, if_pos hc] at hmem
        rcases List.mem_append.mp hmem with h1 | h2
        · exact Or.inl h1
        · right
          refine ⟨p, List.mem_cons_self p rest, ?_⟩
          simpa using h2
      · rw [spendStep, if_neg hc] at hmem
        exact Or.inl hmem
    · exact Or.inr ⟨q, List.mem_cons_of_mem p hq, hxq⟩

theorem spend_mem (pkh : List Nat) (amount : Int) :
    ∀ (idx : UtxoIdx) (st : Int × List (String × Nat × Int)) (x : String × Nat × Int),
      x ∈ (idx.foldl (fun st e => e.2.foldl (spendStep pkh amount e.1) st) st).2 →
      x ∈ st.2 ∨ ∃ e ∈ idx, ∃ p ∈ e.2, x = (e.1, p.1, p.2.value) := by
  intro idx
  induction idx with
  | nil => intro st x hx; exact Or.inl hx
  | cons e rest ih =>
    intro st x hx
    rw [List.foldl_cons] at hx
    rcases ih _ x hx with hmem | ⟨f, hf, p, hp, hxp⟩
    · rcases spend_inner_mem pkh amount e.1 e.2 st x hmem with h1 | ⟨p, hp, hxp⟩
      · exact Or.inl h1
      · exact Or.inr ⟨e, List.mem_cons_self e rest, p, hp, hxp⟩
    · exact Or.inr ⟨f, List.mem_cons_of_mem e hf, p, hp, hxp⟩

theorem lookupA_self_of_nodup {α : Type} :
    ∀ (m : List (String × α)), nodupKeys m → ∀ e ∈ m, lookupA m e.1 = some e.2 := by
  intro m
  induction m with
  | nil => intro _ e he; simp at he
  | cons kv rest ih =>
    intro hnd e he
    rw [nodupKeys, List.map_cons, List.nodup_cons] at hnd
    rcases List.mem_cons.mp he with rfl | hr
    · simp [lookupA]
    · have hne : kv.1 ≠ e.1 := by
        intro hEq
        exact hnd.1 (hEq ▸ List.mem_map.mpr ⟨e, hr, rfl⟩)
      rw [lookupA]
      rw [if_neg hne]
      exact ih hnd.2 e hr

theorem find?_fst_of_mem :
    ∀ (outs : List (Nat × TXOutput)) (p : Nat × TXOutput),
      (outs.map Prod.fst).Nodup → p ∈ outs →
      outs.find? (fun q => decide ((q.1 : Int) = (p.1 : Int))) = some p := by
  intro outs
  induction outs with
  | nil => intro p _ hp; simp at hp
  | cons q rest ih =>
    intro p hnd hp
    rw [List.map_cons, List.nodup_cons] at hnd
    by_cases hq : (q.1 : Int) = (p.1 : Int)
    · have hq' : q.1 = p.1 := by exact_mod_cast hq
      rcases List.mem_cons.mp hp with rfl | hr
      · rw [List.find?_cons_of_pos]
        simp
      · exact absurd (hq' ▸ List.mem_map.mpr ⟨p, hr, rfl⟩) hnd.1
    · have hne : p ≠ q := by
        intro hEq; exact hq (by rw [hEq])
      rcases List.mem_cons.mp hp with rfl | hr
      · exact absurd rfl hne
      · rw [List.find?_cons_of_neg]
        · exact ih p hnd.2 hr
        · simpa using hq

/-- C8: a transfer built by `new_transfer`/`new_utxo` conserves value — the sum
of the values of the indexed outputs its inputs reference equals the sum of its
own output values (amount plus change); such transfers are the only
non-coinbase transactions the program commits, and the built transaction is
indeed not a coinbase. -/
theorem c8_value_conservation (idH : Enc → String) (fromHash toHash fromPub : List Nat)
    (amount : Int) (idx : UtxoIdx) (tx : Transaction)
    (hk : nodupKeys idx)
    (hfst : ∀ e ∈ idx, (e.2.map Prod.fst).Nodup)
    (h : Transaction.new_utxo idH fromHash toHash fromPub amount idx = .ok tx) :
    tx.is_coinbase = false ∧
    (tx.vin.map (refValue idx)).sum = (tx.vout.map TXOutput.value).sum := by
  by_cases hc : (find_spendable_outputs idx fromHash amount).1 < amount
  · rw [Transaction.new_utxo, if_pos (by simpa using hc)] at h
    cases h
  · rw [Transaction.new_utxo, if_neg (by simpa using hc)] at h
    have htx : tx = ⟨idH (Transaction.encode
        ⟨"", (find_spendable_outputs idx fromHash amount).2.map
            (fun s => (⟨s.1, (s.2.1 : Int), [], fromPub⟩ : TXInput)),
          (⟨amount, toHash⟩ : TXOutput) ::
            (if decide (amount < (find_spendable_outputs idx fromHash amount).1) then
              [(⟨(find_spendable_outputs idx fromHash amount).1 - amount, fromHash⟩ : TXOutput)]
            else [])⟩),
        (find_spendable_outputs idx fromHash amount).2.map
            (fun s => (⟨s.1, (s.2.1 : Int), [], fromPub⟩ : TXInput)),
        (⟨amount, toHash⟩ : TXOutput) ::
            (if decide (amount < (find_spendable_outputs idx fromHash amount).1) then
              [(⟨(find_spendable_outputs idx fromHash amount).1 - amount, fromHash⟩ : TXOutput)]
            else [])⟩ := by
      cases h
      rfl
    subst htx
    constructor
    · cases hsel : (find_spendable_outputs idx fromHash amount).2 with
      | nil => simp [Transaction.is_coinbase, hsel]
      | cons x rest =>
        cases rest with
        | nil =>
          have : ((x.2.1 : Int) == (-1 : Int)) = false := by
            have : (x.2.1 : Int) ≠ -1 := by
              have := Int.natCast_nonneg x.2.1
              omega
            simp [this]
          simp [Transaction.is_coinbase, hsel, this]
        | cons y more => simp [Transaction.is_coinbase, hsel]
    · have hrefs : ∀ x ∈ (find_spendable_outputs idx fromHash amount).2,
          refValue idx (⟨x.1, (x.2.1 : Int), [], fromPub⟩ : TXInput) = x.2.2 := by
        intro x hx
        rcases spend_mem fromHash amount idx (0, []) x hx with hmem | ⟨e, he, p, hp, hxp⟩
        · simp at hmem
        · subst hxp
          have hlook := lookupA_self_of_nodup idx hk e he
          have hfind := find?_fst_of_mem e.2 p (hfst e he) hp
          simp only [Nat.cast_inj] at hfind
          simp [refValue, hlook, hfind]
      have hlhs : ((((find_spendable_outputs idx fromHash amount).2.map
            (fun s => (⟨s.1, (s.2.1 : Int), [], fromPub⟩ : TXInput))).map (refValue idx)).sum)
          = (((find_spendable_outputs idx fromHash amount).2).map (fun s => s.2.2)).sum := by
        rw [List.map_map]
        refine congrArg List.sum (List.map_congr_left ?_)
        intro x hx
        exact hrefs x hx
      rw [hlhs, ← spend_sum]
      by_cases hov : amount < (find_spendable_outputs idx fromHash amount).1
      · rw [if_pos (by simpa using hov)]
        simp
      · rw [if_neg (by simpa using hov)]
        simp
        omega

/-- C8 witness: funding the concrete transfer `txW` from index `idxW` —
referenced values 5 + 4 equal outputs 6 (amount) + 3 (change). -/
theorem c8_witness :
    txW.is_coinbase = false ∧
    (txW.vin.map (refValue idxW)).sum = (txW.vout.map TXOutput.value).sum :=
  c8_value_conservation hZero [1] [2] [9] 6 idxW txW
    (by unfold nodupKeys; decide) (by decide) rfl

/-! ## Association-list map lemmas -/

theorem lookupA_isSome_iff_mem {α : Type} :
    ∀ (m : List (String × α)) (k : String),
      (lookupA m k).isSome ↔ k ∈ m.map Prod.fst := by
  intro m k
  induction m with
  | nil => simp [lookupA]
  | cons kv rest ih =>
    by_cases h : kv.1 = k
    · simp [lookupA, h]
    · simp [lookupA, h, ih, Ne.symm h]

theorem lookupA_eq_none_of_not_mem {α : Type} (m : List (String × α)) (k : String)
    (h : k ∉ m.map Prod.fst) : lookupA m k = none := by
  cases hl : lookupA m k with
  | none => rfl
  | some v =>
    exact absurd ((lookupA_isSome_iff_mem m k).mp (by simp [hl])) h

theorem lookupA_updateA_self {α : Type} :
    ∀ (m : List (String × α)) (k : String) (v : α),
      (lookupA m k).isSome → lookupA (updateA m k v) k = some v := by
  intro m
  induction m with
  | nil => intro k v h; simp [lookupA] at h
  | cons kv rest ih =>
    intro k v h
    by_cases hk : kv.1 = k
    · simp [updateA, lookupA, hk]
    · rw [lookupA, if_neg hk] at h
      simp only [updateA, if_neg hk]
      rw [lookupA, if_neg hk]
      exact ih k v h

theorem lookupA_updateA_ne {α : Type} :
    ∀ (m : List (String × α)) (k : String) (v : α) (k' : String), k ≠ k' →
      lookupA (updateA m k v) k' = lookupA m k' := by
  intro m
  induction m with
  | nil => intro k v k' _; rfl
  | cons kv rest ih =>
    intro k v k' hne
    by_cases hk : kv.1 = k
    · simp only [updateA, if_pos hk]
      rw [lookupA, lookupA, if_neg (by rw [← hk] at hne; exact fun hc => hne (hk ▸ hc)), hk,
        if_neg hne]
    · simp only [updateA, if_neg hk]
      rw [lookupA, lookupA]
      by_cases hk' : kv.1 = k'
      · simp [hk']
      · rw [if_neg hk', if_neg hk']
        exact ih k v k' hne

theorem lookupA_eraseA_ne {α : Type} :
    ∀ (m : List (String × α)) (k k' : String), k ≠ k' →
      lookupA (eraseA m k) k' = lookupA m k' := by
  intro m
  induction m with
  | nil => intro k k' _; rfl
  | cons kv rest ih =>
    intro k k' hne
    by_cases hk : kv.1 = k
    · simp only [eraseA, if_pos hk]
      rw [lookupA, if_neg (by rw [hk]; exact hne)]
    · simp only [eraseA, if_neg hk]
      rw [lookupA, lookupA]
      by_cases hk' : kv.1 = k'
      · simp [hk']
      · rw [if_neg hk', if_neg hk']
        exact ih k k' hne

theorem lookupA_eraseA_self {α : Type} :
    ∀ (m : List (String × α)) (k : String), nodupKeys m →
      lookupA (eraseA m k) k = none := by
  intro m
  induction m with
  | nil => intro k _; rfl
  | cons kv rest ih =>
    intro k hnd
    rw [nodupKeys, List.map_cons, List.nodup_cons] at hnd
    by_cases hk : kv.1 = k
    · simp only [eraseA, if_pos hk]
      exact lookupA_eq_none_of_not_mem rest k (hk ▸ hnd.1)
    · simp only [eraseA, if_neg hk]
      rw [lookupA, if_neg hk]
      exact ih k hnd.2

theorem map_fst_updateA {α : Type} :
    ∀ (m : List (String × α)) (k : String) (v : α),
      (updateA m k v).map Prod.fst = m.map Prod.fst := by
  intro m
  induction m with
  | nil => intro k v; rfl
  | cons kv rest ih =>
    intro k v
    by_cases hk : kv.1 = k
    · simp [updateA, hk]
    · simp [updateA, hk, ih]

theorem map_fst_eraseA_sublist {α : Type} :
    ∀ (m : List (String × α)) (k : String),
      ((eraseA m k).map Prod.fst).Sublist (m.map Prod.fst) := by
  intro m
  induction m with
  | nil => intro k; simp [eraseA]
  | cons kv rest ih =>
    intro k
    by_cases hk : kv.1 = k
    · simp only [eraseA, if_pos hk, List.map_cons]
      exact List.sublist_cons_self kv.1 (rest.map Prod.fst)
    · simp only [eraseA, if_neg hk, List.map_cons]
      exact List.Sublist.cons₂ kv.1 (ih k)

theorem nodupKeys_updateA {α : Type} (m : List (String × α)) (k : String) (v : α)
    (h : nodupKeys m) : nodupKeys (updateA m k v) := by
  rw [nodupKeys, map_fst_updateA]
  exact h

theorem nodupKeys_eraseA {α : Type} (m : List (String × α)) (k : String)
    (h : nodupKeys m) : nodupKeys (eraseA m k) :=
  (map_fst_eraseA_sublist m k).nodup h

theorem lookupA_pushEntry_self {β : Type} (m : List (String × List β)) (k : String) (x : β) :
    lookupA (pushEntry m k x) k = some ((lookupA m k).getD [] ++ [x]) := by
  cases h : lookupA m k with
  | none => simp [pushEntry, h, lookupA]
  | some l =>
    rw [pushEntry, h]
    simp only [Option.getD_some]
    exact lookupA_updateA_self m k (l ++ [x]) (by simp [h])

theorem lookupA_pushEntry_ne {β : Type} (m : List (String × List β)) (k : String) (x : β)
    (k' : String) (h : k ≠ k') : lookupA (pushEntry m k x) k' = lookupA m k' := by
  cases hl : lookupA m k with
  | none =>
    rw [pushEntry, hl, lookupA, if_neg h]
  | some l =>
    rw [pushEntry, hl]
    exact lookupA_updateA_ne m k (l ++ [x]) k' h

theorem nodupKeys_pushEntry {β : Type} (m : List (String × List β)) (k : String) (x : β)
    (h : nodupKeys m) : nodupKeys (pushEntry m k x) := by
  cases hl : lookupA m k with
  | none =>
    rw [pushEntry, hl, nodupKeys, List.map_cons, List.nodup_cons]
    refine ⟨?_, h⟩
    intro hmem
    have := (lookupA_isSome_iff_mem m k).mpr hmem
    rw [hl] at this
    simp at this
  | some l =>
    rw [pushEntry, hl]
    exact nodupKeys_updateA m k (l ++ [x]) h

theorem lookupA_removeRef_ne (m : UtxoIdx) (k : String) (v : Int) (k' : String)
    (h : k ≠ k') : lookupA (removeRef m k v) k' = lookupA m k' := by
  cases hl : lookupA m k with
  | none => rw [removeRef, hl]
  | some outs =>
    rw [removeRef, hl]
    by_cases he : (outs.filter (fun p => !(decide ((p.1 : Int) = v)))).isEmpty
    · simp only [he, if_true]
      exact lookupA_eraseA_ne m k k' h
    · simp only [he, if_false]
      exact lookupA_updateA_ne m k _ k' h

theorem lookupA_removeRef_self (m : UtxoIdx) (k : String) (v : Int)
    (hnd : nodupKeys m) : lookupA (removeRef m k v) k = remStep (lookupA m k) v := by
  cases hl : lookupA m k with
  | none => rw [removeRef, hl]; exact hl
  | some outs =>
    rw [removeRef, hl, remStep]
    by_cases he : (outs.filter (fun p => !(decide ((p.1 : Int) = v)))).isEmpty
    · simp only [he, if_true]
      exact lookupA_eraseA_self m k hnd
    · simp only [he, if_false]
      exact lookupA_updateA_self m k _ (by simp [hl])

theorem nodupKeys_removeRef (m : UtxoIdx) (k : String) (v : Int)
    (h : nodupKeys m) : nodupKeys (removeRef m k v) := by
  cases hl : lookupA m k with
  | none => rw [removeRef, hl]; exact h
  | some outs =>
    rw [removeRef, hl]
    by_cases he : (outs.filter (fun p => !(decide ((p.1 : Int) = v)))).isEmpty
    · simp only [he, if_true]
      exact nodupKeys_eraseA m k h
    · simp only [he, if_false]
      exact nodupKeys_updateA m k _ h

/-! ## Fold lemmas for the find_utxo scan -/

theorem optAppend_nil {β : Type} (o : Option (List β)) : optAppend o [] = o := by
  cases o <;> simp [optAppend]

theorem optAppend_push {β : Type} (o : Option (List β)) (x : β) (xs : List β) :
    optAppend (some (o.getD [] ++ [x])) xs = optAppend o (x :: xs) := by
  cases o <;> simp [optAppend]

theorem lookupA_pushFold_self {β : Type} (k : String) :
    ∀ (xs : List β) (m : List (String × List β)),
      lookupA (xs.foldl (fun m x => pushEntry m k x) m) k = optAppend (lookupA m k) xs := by
  intro xs
  induction xs with
  | nil => intro m; simp [optAppend_nil]
  | cons x xs ih =>
    intro m
    rw [List.foldl_cons, ih (pushEntry m k x), lookupA_pushEntry_self, optAppend_push]

theorem lookupA_pushFold_ne {β : Type} (k k' : String) (h : k ≠ k') :
    ∀ (xs : List β) (m : List (String × List β)),
      lookupA (xs.foldl (fun m x => pushEntry m k x) m) k' = lookupA m k' := by
  intro xs
  induction xs with
  | nil => intro m; rfl
  | cons x xs ih =>
    intro m
    rw [List.foldl_cons, ih (pushEntry m k x), lookupA_pushEntry_ne m k x k' h]

theorem foldl_if_push_eq {β γ : Type} (k : String) (c : γ → Bool) (f : γ → β) :
    ∀ (ps : List γ) (m : List (String × List β)),
      ps.foldl (fun m p => if c p then m else pushEntry m k (f p)) m
        = ((ps.filter (fun p => !(c p))).map f).foldl (fun m x => pushEntry m k x) m := by
  intro ps
  induction ps with
  | nil => intro m; rfl
  | cons p ps ih =>
    intro m
    rw [List.foldl_cons]
    by_cases hc : c p = true
    · rw [if_pos hc, List.filter_cons_of_neg (by simp [hc]), ih]
    · rw [if_neg hc, List.filter_cons_of_pos (by simp [hc]), List.map_cons, List.foldl_cons, ih]

theorem processTx_u_ne (st : UMap × SMap) (tx : Transaction) (key : String)
    (h : tx.id ≠ key) : lookupA (processTx st tx).1 key = lookupA st.1 key := by
  show lookupA (tx.vout.enum.foldl
      (fun u p => if decide ((p.1 : Int) ∈ (lookupA st.2 tx.id).getD []) then u
        else pushEntry u tx.id p.2) st.1) key = lookupA st.1 key
  rw [foldl_if_push_eq tx.id _ Prod.snd, lookupA_pushFold_ne tx.id key h]

theorem processTx_u_self (st : UMap × SMap) (tx : Transaction) (key : String)
    (h : tx.id = key) :
    lookupA (processTx st tx).1 key
      = optAppend (lookupA st.1 key)
          ((tx.vout.enum.filter
            (fun p => !(decide ((p.1 : Int) ∈ (lookupA st.2 key).getD [])))).map Prod.snd) := by
  subst h
  show lookupA (tx.vout.enum.foldl
      (fun u p => if decide ((p.1 : Int) ∈ (lookupA st.2 tx.id).getD []) then u
        else pushEntry u tx.id p.2) st.1) tx.id = _
  rw [foldl_if_push_eq tx.id _ Prod.snd, lookupA_pushFold_self tx.id]

theorem sInputsFold_ne (key : String) :
    ∀ (ins : List TXInput) (s : SMap), (∀ i ∈ ins, i.txid ≠ key) →
      lookupA (ins.foldl (fun s i => pushEntry s i.txid i.vout) s) key = lookupA s key := by
  intro ins
  induction ins with
  | nil => intro s _; rfl
  | cons i ins ih =>
    intro s h
    rw [List.foldl_cons, ih _ (fun j hj => h j (List.mem_cons_of_mem i hj)),
      lookupA_pushEntry_ne s i.txid i.vout key (h i (List.mem_cons_self i ins))]

theorem getD_pushEntry_mem {β : Type} (s : List (String × List β)) (k0 : String) (x : β)
    (key : String) (v : β) :
    v ∈ (lookupA (pushEntry s k0 x) key).getD [] ↔
      v ∈ (lookupA s key).getD [] ∨ (k0 = key ∧ x = v) := by
  by_cases hk : k0 = key
  · subst hk
    rw [lookupA_pushEntry_self]
    simp [eq_comm]
  · rw [lookupA_pushEntry_ne s k0 x key hk]
    simp [hk]

theorem sInputsFold_mem (key : String) (v : Int) :
    ∀ (ins : List TXInput) (s : SMap),
      v ∈ (lookupA (ins.foldl (fun s i => pushEntry s i.txid i.vout) s) key).getD [] ↔
        v ∈ (lookupA s key).getD [] ∨ ∃ i ∈ ins, i.txid = key ∧ i.vout = v := by
  intro ins
  induction ins with
  | nil => intro s; simp
  | cons i ins ih =>
    intro s
    rw [List.foldl_cons, ih (pushEntry s i.txid i.vout), getD_pushEntry_mem]
    constructor
    · rintro ((h1 | h2) | ⟨j, hj, hjk, hjv⟩)
      · exact Or.inl h1
      · exact Or.inr ⟨i, List.mem_cons_self i ins, h2⟩
      · exact Or.inr ⟨j, List.mem_cons_of_mem i hj, hjk, hjv⟩
    · rintro (h1 | ⟨j, hj, hjk, hjv⟩)
      · exact Or.inl (Or.inl h1)
      · rcases List.mem_cons.mp hj with rfl | hj'
        · exact Or.inl (Or.inr ⟨hjk, hjv⟩)
        · exact Or.inr ⟨j, hj', hjk, hjv⟩

theorem mem_txRefs (tx : Transaction) (key : String) (v : Int) :
    (key, v) ∈ txRefs tx ↔
      tx.is_coinbase = false ∧ ∃ i ∈ tx.vin, i.txid = key ∧ i.vout = v := by
  rw [txRefs]
  by_cases hcb : tx.is_coinbase = true
  · simp [hcb]
  · have hcb' : tx.is_coinbase = false := eq_false_of_ne_true hcb
    rw [if_neg hcb, hcb']
    simp only [Bool.false_eq_true, false_and, true_and, iff_true, not_false_iff]
    constructor
    · intro hm
      rcases List.mem_map.mp hm with ⟨i, hi, hip⟩
      exact ⟨i, hi, congrArg Prod.fst hip, congrArg Prod.snd hip⟩
    · rintro ⟨i, hi, h1, h2⟩
      exact List.mem_map.mpr ⟨i, hi, by rw [h1, h2]⟩

theorem processTx_s_ne (st : UMap × SMap) (tx : Transaction) (key : String)
    (h : ∀ r ∈ txRefs tx, r.1 ≠ key) :
    lookupA (processTx st tx).2 key = lookupA st.2 key := by
  show lookupA (if tx.is_coinbase then st.2 else
      tx.vin.foldl (fun s i => pushEntry s i.txid i.vout) st.2) key = lookupA st.2 key
  by_cases hcb : tx.is_coinbase
  · rw [if_pos hcb]
  · rw [if_neg hcb]
    refine sInputsFold_ne key tx.vin st.2 ?_
    intro i hi
    refine h (i.txid, i.vout) ?_
    rw [txRefs, if_neg hcb]
    exact List.mem_map.mpr ⟨i, hi, rfl⟩

theorem processTx_s_mem (st : UMap × SMap) (tx : Transaction) (key : String) (v : Int) :
    v ∈ (lookupA (processTx st tx).2 key).getD [] ↔
      v ∈ (lookupA st.2 key).getD [] ∨ (key, v) ∈ txRefs tx := by
  show v ∈ (lookupA (if tx.is_coinbase then st.2 else
      tx.vin.foldl (fun s i => pushEntry s i.txid i.vout) st.2) key).getD [] ↔ _
  by_cases hcb : tx.is_coinbase
  · rw [if_pos hcb]
    simp [txRefs, hcb]
  · rw [if_neg hcb, sInputsFold_mem, mem_txRefs]
    simp [eq_false_of_ne_true hcb]

/-! ## Per-block fold lemmas for the scan -/

theorem blockFold_u_ne :
    ∀ (txs : List Transaction) (st : UMap × SMap) (key : String),
      (∀ t ∈ txs, t.id ≠ key) →
      lookupA (txs.foldl processTx st).1 key = lookupA st.1 key := by
  intro txs
  induction txs with
  | nil => intro st key _; rfl
  | cons t txs ih =>
    intro st key h
    rw [List.foldl_cons, ih _ key (fun u hu => h u (List.mem_cons_of_mem t hu)),
      processTx_u_ne st t key (h t (List.mem_cons_self t txs))]

theorem blockFold_s_ne :
    ∀ (txs : List Transaction) (st : UMap × SMap) (key : String),
      (∀ t ∈ txs, ∀ r ∈ txRefs t, r.1 ≠ key) →
      lookupA (txs.foldl processTx st).2 key = lookupA st.2 key := by
  intro txs
  induction txs with
  | nil => intro st key _; rfl
  | cons t txs ih =>
    intro st key h
    rw [List.foldl_cons, ih _ key (fun u hu => h u (List.mem_cons_of_mem t hu)),
      processTx_s_ne st t key (h t (List.mem_cons_self t txs))]

theorem blockFold_s_mem :
    ∀ (txs : List Transaction) (st : UMap × SMap) (key : String) (v : Int),
      v ∈ (lookupA (txs.foldl processTx st).2 key).getD [] ↔
        v ∈ (lookupA st.2 key).getD [] ∨ (key, v) ∈ txs.flatMap txRefs := by
  intro txs
  induction txs with
  | nil => intro st key v; simp
  | cons t txs ih =>
    intro st key v
    rw [List.foldl_cons, ih (processTx st t) key v, processTx_s_mem st t key v,
      List.flatMap_cons]
    simp [List.mem_append, or_assoc, or_comm, or_left_comm]

theorem blockFold_u_self (pre post : List Transaction) (t : Transaction)
    (st : UMap × SMap) (key : String)
    (ht : t.id = key)
    (hpre : ∀ u ∈ pre, u.id ≠ key)
    (hpost : ∀ u ∈ post, u.id ≠ key)
    (hrefs : ∀ u ∈ pre, ∀ r ∈ txRefs u, r.1 ≠ key)
    (hu : lookupA st.1 key = none) :
    lookupA (((pre ++ t :: post).foldl processTx st)).1 key
      = optAppend none
          ((t.vout.enum.filter
            (fun p => !(decide ((p.1 : Int) ∈ (lookupA st.2 key).getD [])))).map Prod.snd) := by
  rw [List.foldl_append, List.foldl_cons]
  have hs1 : lookupA (pre.foldl processTx st).2 key = lookupA st.2 key :=
    blockFold_s_ne pre st key hrefs
  have hu1 : lookupA (pre.foldl processTx st).1 key = none :=
    (blockFold_u_ne pre st key hpre).trans hu
  rw [blockFold_u_ne post _ key hpost, processTx_u_self _ t key ht, hu1, hs1]

/-! ## Chain-level characterization of the find_utxo scan -/

theorem utxoScan_reverse_cons (b : Block) (rest : List Block) :
    utxoScan ((b :: rest).reverse) = processBlock (utxoScan rest.reverse) b := by
  rw [List.reverse_cons, utxoScan, utxoScan, List.foldl_append]
  rfl

theorem chainRefs_cons (b : Block) (rest : List Block) :
    chainRefs (b :: rest) = blockRefs b ++ chainRefs rest := by
  simp [chainRefs]

theorem chainTxs_cons (b : Block) (rest : List Block) :
    chainTxs (b :: rest) = b.transactions ++ chainTxs rest := by
  simp [chainTxs]

theorem chainIds_cons (b : Block) (rest : List Block) :
    chainIds (b :: rest) = b.transactions.map (fun t => t.id) ++ chainIds rest := by
  simp [chainIds, chainTxs]

theorem scan_s_mem :
    ∀ (chain : List Block) (key : String) (v : Int),
      v ∈ (lookupA (utxoScan chain.reverse).2 key).getD [] ↔ (key, v) ∈ chainRefs chain := by
  intro chain
  induction chain with
  | nil => intro key v; simp [utxoScan, lookupA, chainRefs]
  | cons b rest ih =>
    intro key v
    rw [utxoScan_reverse_cons]
    show v ∈ (lookupA (b.transactions.foldl processTx (utxoScan rest.reverse)).2 key).getD [] ↔ _
    rw [blockFold_s_mem, ih key v, chainRefs_cons, List.mem_append, blockRefs]
    exact or_comm

theorem scan_u_none :
    ∀ (chain : List Block) (key : String), key ∉ chainIds chain →
      lookupA (utxoScan chain.reverse).1 key = none := by
  intro chain
  induction chain with
  | nil => intro key _; rfl
  | cons b rest ih =>
    intro key hk
    rw [chainIds_cons] at hk
    have hkb : ∀ t ∈ b.transactions, t.id ≠ key := by
      intro t ht hEq
      exact hk (List.mem_append.mpr (Or.inl (List.mem_map.mpr ⟨t, ht, hEq⟩)))
    have hkr : key ∉ chainIds rest := fun h => hk (List.mem_append.mpr (Or.inr h))
    rw [utxoScan_reverse_cons]
    show lookupA (b.transactions.foldl processTx (utxoScan rest.reverse)).1 key = none
    rw [blockFold_u_ne _ _ key hkb]
    exact ih key hkr

theorem backRefsOnly_head (b : Block) (rest : List Block)
    (h : backRefsOnly (b :: rest) = true) :
    (∀ r ∈ blockRefs b, r.1 ∉ chainIds (b :: rest)) ∧ backRefsOnly rest = true := by
  rw [backRefsOnly, Bool.and_eq_true, List.all_eq_true] at h
  refine ⟨?_, h.2⟩
  intro r hr
  have := h.1 r hr
  simpa using this

theorem find?_id_eq_none (key : String) :
    ∀ (txs : List Transaction), (∀ t ∈ txs, t.id ≠ key) →
      txs.find? (fun t => t.id == key) = none := by
  intro txs
  induction txs with
  | nil => intro _; rfl
  | cons t txs ih =>
    intro h
    rw [List.find?_cons_of_neg]
    · exact ih (fun u hu => h u (List.mem_cons_of_mem t hu))
    · simpa using h t (List.mem_cons_self t txs)

theorem find?_append_none {α : Type} (p : α → Bool) :
    ∀ (l1 l2 : List α), l1.find? p = none → (l1 ++ l2).find? p = l2.find? p := by
  intro l1
  induction l1 with
  | nil => intro l2 _; rfl
  | cons a l1 ih =>
    intro l2 h
    by_cases hp : p a = true
    · rw [List.find?_cons_of_pos _ hp] at h
      cases h
    · rw [List.find?_cons_of_neg _ hp] at h
      rw [List.cons_append, List.find?_cons_of_neg _ hp]
      exact ih l2 h

theorem mem_refsAt (rs : List (String × Int)) (key : String) (v : Int) :
    v ∈ refsAt rs key ↔ (key, v) ∈ rs := by
  rw [refsAt]
  constructor
  · intro h
    rcases List.mem_filterMap.mp h with ⟨r, hr, hrv⟩
    by_cases hk : r.1 = key
    · rw [if_pos hk] at hrv
      have : r = (key, v) := by
        cases r
        simp at hk hrv
        simp [hk, hrv]
      exact this ▸ hr
    · rw [if_neg hk] at hrv
      cases hrv
  · intro h
    exact List.mem_filterMap.mpr ⟨(key, v), h, by simp⟩

theorem isEmpty_map {α β : Type} (f : α → β) (l : List α) :
    (l.map f).isEmpty = l.isEmpty := by
  cases l <;> rfl

theorem stripIdx_entryF (base : List (Nat × TXOutput)) (S : List Int) :
    stripIdx (entryF base S)
      = optAppend none
          ((base.filter (fun p => !(decide ((p.1 : Int) ∈ S)))).map Prod.snd) := by
  rw [entryF, stripIdx]
  cases hl : base.filter (fun p => !(decide ((p.1 : Int) ∈ S))) with
  | nil => simp [optAppend]
  | cons q qs => simp [optAppend]

theorem mkEntryIdx_of_find?_none (chain : List Block) (key : String)
    (h : (chainTxs chain).find? (fun u => u.id == key) = none) :
    mkEntryIdx chain key = none := by
  rw [mkEntryIdx, h]

theorem mkEntryIdx_of_find?_some (chain : List Block) (key : String) (t : Transaction)
    (h : (chainTxs chain).find? (fun u => u.id == key) = some t) :
    mkEntryIdx chain key = entryF t.vout.enum (refsAt (chainRefs chain) key) := by
  rw [mkEntryIdx, h]

theorem scan_u_char :
    ∀ (chain : List Block), UniqueIds chain → backRefsOnly chain = true →
      ∀ key, lookupA (utxoScan chain.reverse).1 key = stripIdx (mkEntryIdx chain key) := by
  intro chain
  induction chain with
  | nil =>
    intro _ _ key
    simp [utxoScan, lookupA, mkEntryIdx, chainTxs, stripIdx]
  | cons b rest ih =>
    intro hU hB key
    obtain ⟨hbr, hBrest⟩ := backRefsOnly_head b rest hB
    have hUc : (b.transactions.map (fun t => t.id) ++ chainIds rest).Nodup := by
      have h := hU
      rwa [UniqueIds, chainIds_cons] at h
    have hUrest : UniqueIds rest := by
      rw [UniqueIds]; exact hUc.of_append_right
    rw [utxoScan_reverse_cons]
    show lookupA (b.transactions.foldl processTx (utxoScan rest.reverse)).1 key = _
    by_cases hkb : key ∈ b.transactions.map (fun t => t.id)
    · obtain ⟨t0, ht0mem, ht0id⟩ := List.mem_map.mp hkb
      obtain ⟨pre, post, hsplit⟩ := List.append_of_mem ht0mem
      have hkey_in : key ∈ chainIds (b :: rest) := by
        rw [chainIds_cons]; exact List.mem_append.mpr (Or.inl hkb)
      have hkrest : key ∉ chainIds rest :=
        fun h => (List.disjoint_of_nodup_append hUc) hkb h
      have hnodb : (b.transactions.map (fun t => t.id)).Nodup := hUc.of_append_left
      have hnodb' : ((pre.map (fun t => t.id)) ++ t0.id :: (post.map (fun t => t.id))).Nodup := by
        rw [hsplit] at hnodb
        simpa using hnodb
      have hmid := List.nodup_middle.mp hnodb'
      rw [List.nodup_cons] at hmid
      have hpre : ∀ u ∈ pre, u.id ≠ key := by
        intro u hu hEq
        exact hmid.1 (List.mem_append.mpr (Or.inl (List.mem_map.mpr ⟨u, hu, by rw [hEq, ht0id]⟩)))
      have hpost : ∀ u ∈ post, u.id ≠ key := by
        intro u hu hEq
        exact hmid.1 (List.mem_append.mpr (Or.inr (List.mem_map.mpr ⟨u, hu, by rw [hEq, ht0id]⟩)))
      have hnoref : ∀ u ∈ b.transactions, ∀ r ∈ txRefs u, r.1 ≠ key := by
        intro u hu r hr hEq
        have hrb : r ∈ blockRefs b := by
          rw [blockRefs]; exact List.mem_flatMap.mpr ⟨u, hu, hr⟩
        exact (hbr r hrb) (hEq ▸ hkey_in)
      have hrefs_pre : ∀ u ∈ pre, ∀ r ∈ txRefs u, r.1 ≠ key := by
        intro u hu
        exact hnoref u (by rw [hsplit]; exact List.mem_append.mpr (Or.inl hu))
      have hu0 : lookupA (utxoScan rest.reverse).1 key = none := scan_u_none rest key hkrest
      rw [hsplit, blockFold_u_self pre post t0 _ key ht0id hpre hpost hrefs_pre hu0]
      have hfind : (chainTxs (b :: rest)).find? (fun t => t.id == key) = some t0 := by
        rw [chainTxs_cons, hsplit]
        have h1 : pre.find? (fun t => t.id == key) = none := find?_id_eq_none key pre hpre
        rw [List.append_assoc, find?_append_none _ pre _ h1, List.cons_append,
          List.find?_cons_of_pos _ (by simp [ht0id])]
      rw [mkEntryIdx_of_find?_some (b :: rest) key t0 hfind, stripIdx_entryF]
      have hfeq : t0.vout.enum.filter
            (fun p => !(decide ((p.1 : Int) ∈ (lookupA (utxoScan rest.reverse).2 key).getD [])))
          = t0.vout.enum.filter
            (fun p => !(decide ((p.1 : Int) ∈ refsAt (chainRefs (b :: rest)) key))) := by
        refine List.filter_congr ?_
        intro p hp
        have hiff : ((p.1 : Int) ∈ (lookupA (utxoScan rest.reverse).2 key).getD [])
            ↔ ((p.1 : Int) ∈ refsAt (chainRefs (b :: rest)) key) := by
          rw [scan_s_mem, mem_refsAt, chainRefs_cons, List.mem_append]
          constructor
          · exact Or.inr
          · rintro (hbl | hrt)
            · exact absurd hkey_in (hbr _ hbl)
            · exact hrt
        rw [decide_eq_decide.mpr hiff]
      rw [hfeq]
    · have hne : ∀ t ∈ b.transactions, t.id ≠ key :=
        fun t ht h => hkb (List.mem_map.mpr ⟨t, ht, h⟩)
      rw [blockFold_u_ne _ _ key hne, ih hUrest hBrest key]
      have hfind1 : b.transactions.find? (fun t => t.id == key) = none :=
        find?_id_eq_none key b.transactions hne
      have hfindc : (chainTxs (b :: rest)).find? (fun t => t.id == key)
          = (chainTxs rest).find? (fun t => t.id == key) := by
        rw [chainTxs_cons]
        exact find?_append_none _ _ _ hfind1
      cases hf : (chainTxs rest).find? (fun t => t.id == key) with
      | none =>
        rw [mkEntryIdx_of_find?_none rest key hf,
          mkEntryIdx_of_find?_none (b :: rest) key (hfindc.trans hf)]
      | some t =>
        have htmem : t ∈ chainTxs rest := List.mem_of_find?_eq_some hf
        have htid : t.id = key := by
          have h := List.find?_some hf
          simpa using h
        have hkeyrest : key ∈ chainIds rest := by
          rw [chainIds]
          exact List.mem_map.mpr ⟨t, htmem, htid⟩
        rw [mkEntryIdx_of_find?_some rest key t hf,
          mkEntryIdx_of_find?_some (b :: rest) key t (hfindc.trans hf)]
        have hfeq : t.vout.enum.filter
              (fun p => !(decide ((p.1 : Int) ∈ refsAt (chainRefs (b :: rest)) key)))
            = t.vout.enum.filter
              (fun p => !(decide ((p.1 : Int) ∈ refsAt (chainRefs rest) key))) := by
          refine List.filter_congr ?_
          intro p hp
          have hiff : ((p.1 : Int) ∈ refsAt (chainRefs (b :: rest)) key)
              ↔ ((p.1 : Int) ∈ refsAt (chainRefs rest) key) := by
            rw [mem_refsAt, mem_refsAt, chainRefs_cons, List.mem_append]
            constructor
            · rintro (hbl | h)
              · refine absurd ?_ (hbr _ hbl)
                rw [chainIds_cons]
                exact List.mem_append.mpr (Or.inr hkeyrest)
              · exact h
            · exact Or.inr
          rw [decide_eq_decide.mpr hiff]
        rw [entryF, entryF, hfeq]

theorem findUtxo_char (chain : List Block) (hU : UniqueIds chain)
    (hB : backRefsOnly chain = true) (key : String) :
    lookupA (findUtxo chain) key = stripIdx (mkEntryIdx chain key) :=
  scan_u_char chain hU hB key

/-! ## Removal/addition fold lemmas for the incremental update -/

theorem chainIds_append (xs ys : List Block) :
    chainIds (xs ++ ys) = chainIds xs ++ chainIds ys := by
  simp [chainIds, chainTxs]

theorem chainTxs_append (xs ys : List Block) :
    chainTxs (xs ++ ys) = chainTxs xs ++ chainTxs ys := by
  simp [chainTxs]

theorem chainRefs_append (xs ys : List Block) :
    chainRefs (xs ++ ys) = chainRefs xs ++ chainRefs ys := by
  simp [chainRefs]

theorem chainIds_single (b : Block) : chainIds [b] = b.transactions.map (fun t => t.id) := by
  simp [chainIds, chainTxs]

theorem chainTxs_single (b : Block) : chainTxs [b] = b.transactions := by
  simp [chainTxs]

theorem chainRefs_single (b : Block) : chainRefs [b] = blockRefs b := by
  simp [chainRefs]

theorem refsAt_append (r1 r2 : List (String × Int)) (key : String) :
    refsAt (r1 ++ r2) key = refsAt r1 key ++ refsAt r2 key := by
  simp [refsAt]

theorem refsAt_cons (r : String × Int) (rs : List (String × Int)) (key : String) :
    refsAt (r :: rs) key
      = if r.1 = key then r.2 :: refsAt rs key else refsAt rs key := by
  by_cases h : r.1 = key <;> simp [refsAt, List.filterMap_cons, h]

theorem find?_append_some {α : Type} (p : α → Bool) :
    ∀ (l1 l2 : List α) (a : α), l1.find? p = some a → (l1 ++ l2).find? p = some a := by
  intro l1
  induction l1 with
  | nil => intro l2 a h; cases h
  | cons x l1 ih =>
    intro l2 a h
    by_cases hp : p x = true
    · rw [List.find?_cons_of_pos _ hp] at h
      rw [List.cons_append, List.find?_cons_of_pos _ hp]
      exact h
    · rw [List.find?_cons_of_neg _ hp] at h
      rw [List.cons_append, List.find?_cons_of_neg _ hp]
      exact ih l2 a h

theorem foldl_remStep_none : ∀ (vs : List Int), List.foldl remStep none vs = none := by
  intro vs
  induction vs with
  | nil => rfl
  | cons v vs ih => rw [List.foldl_cons]; exact ih

theorem remStep_entryF (base : List (Nat × TXOutput)) (S : List Int) (v : Int) :
    remStep (entryF base S) v = entryF base (S ++ [v]) := by
  have hcomp : base.filter (fun p => !(decide ((p.1 : Int) ∈ S ++ [v])))
      = (base.filter (fun p => !(decide ((p.1 : Int) ∈ S)))).filter
          (fun p => !(decide ((p.1 : Int) = v))) := by
    rw [List.filter_filter]
    refine (List.filter_congr ?_).symm
    intro p hp
    by_cases h1 : (p.1 : Int) ∈ S <;> by_cases h2 : (p.1 : Int) = v <;>
      simp [h1, h2, List.mem_append]
  rw [entryF, entryF, hcomp]
  by_cases hE : (base.filter (fun p => !(decide ((p.1 : Int) ∈ S)))).isEmpty
  · rw [if_pos hE]
    have hnil : base.filter (fun p => !(decide ((p.1 : Int) ∈ S))) = [] := by
      rwa [List.isEmpty_iff] at hE
    rw [hnil]
    simp [remStep]
  · rw [if_neg hE]
    simp only [remStep]

theorem foldl_remStep_entryF (base : List (Nat × TXOutput)) :
    ∀ (vs : List Int) (S : List Int),
      List.foldl remStep (entryF base S) vs = entryF base (S ++ vs) := by
  intro vs
  induction vs with
  | nil => intro S; simp
  | cons v vs ih =>
    intro S
    rw [List.foldl_cons, remStep_entryF, ih]
    simp

theorem entryF_nil (base : List (Nat × TXOutput)) : entryF base [] = optAppend none base := by
  rw [entryF, optAppend]
  have h : base.filter (fun p => !(decide ((p.1 : Int) ∈ ([] : List Int)))) = base := by
    simp
  rw [h]

theorem remInputsFold_lookup (key : String) :
    ∀ (ins : List TXInput) (m : UtxoIdx), nodupKeys m →
      lookupA (ins.foldl (fun m i => removeRef m i.txid i.vout) m) key
        = List.foldl remStep (lookupA m key)
            (refsAt (ins.map (fun i => (i.txid, i.vout))) key) := by
  intro ins
  induction ins with
  | nil => intro m _; rfl
  | cons i ins ih =>
    intro m hnd
    rw [List.foldl_cons, List.map_cons, refsAt_cons,
      ih (removeRef m i.txid i.vout) (nodupKeys_removeRef m i.txid i.vout hnd)]
    by_cases hk : i.txid = key
    · rw [if_pos hk, List.foldl_cons, ← hk, lookupA_removeRef_self m i.txid i.vout hnd, hk]
    · rw [if_neg hk, lookupA_removeRef_ne m i.txid i.vout key hk]

theorem nodupKeys_remInputsFold :
    ∀ (ins : List TXInput) (m : UtxoIdx), nodupKeys m →
      nodupKeys (ins.foldl (fun m i => removeRef m i.txid i.vout) m) := by
  intro ins
  induction ins with
  | nil => intro m h; exact h
  | cons i ins ih =>
    intro m h
    rw [List.foldl_cons]
    exact ih _ (nodupKeys_removeRef m i.txid i.vout h)

theorem remTxFold_lookup (key : String) (tx : Transaction) (m : UtxoIdx)
    (hnd : nodupKeys m) :
    lookupA (if tx.is_coinbase then m
        else tx.vin.foldl (fun m i => removeRef m i.txid i.vout) m) key
      = List.foldl remStep (lookupA m key) (refsAt (txRefs tx) key) := by
  by_cases hcb : tx.is_coinbase = true
  · rw [if_pos hcb, txRefs, if_pos hcb]
    rfl
  · rw [if_neg hcb, txRefs, if_neg hcb]
    exact remInputsFold_lookup key tx.vin m hnd

theorem nodupKeys_remTxFold (tx : Transaction) (m : UtxoIdx) (hnd : nodupKeys m) :
    nodupKeys (if tx.is_coinbase then m
      else tx.vin.foldl (fun m i => removeRef m i.txid i.vout) m) := by
  by_cases hcb : tx.is_coinbase = true
  · rw [if_pos hcb]; exact hnd
  · rw [if_neg hcb]; exact nodupKeys_remInputsFold tx.vin m hnd

theorem removalsFold_lookup (key : String) :
    ∀ (txs : List Transaction) (m : UtxoIdx), nodupKeys m →
      lookupA (txs.foldl (fun m tx => if tx.is_coinbase then m
          else tx.vin.foldl (fun m i => removeRef m i.txid i.vout) m) m) key
        = List.foldl remStep (lookupA m key) (refsAt (txs.flatMap txRefs) key) := by
  intro txs
  induction txs with
  | nil => intro m _; rfl
  | cons tx txs ih =>
    intro m hnd
    rw [List.foldl_cons, List.flatMap_cons, refsAt_append, List.foldl_append,
      ih _ (nodupKeys_remTxFold tx m hnd), remTxFold_lookup key tx m hnd]

theorem nodupKeys_removalsFold :
    ∀ (txs : List Transaction) (m : UtxoIdx), nodupKeys m →
      nodupKeys (txs.foldl (fun m tx => if tx.is_coinbase then m
        else tx.vin.foldl (fun m i => removeRef m i.txid i.vout) m) m) := by
  intro txs
  induction txs with
  | nil => intro m h; exact h
  | cons tx txs ih =>
    intro m h
    rw [List.foldl_cons]
    exact ih _ (nodupKeys_remTxFold tx m h)

theorem addFold_ne (key : String) :
    ∀ (txs : List Transaction) (m : UtxoIdx), (∀ t ∈ txs, t.id ≠ key) →
      lookupA (txs.foldl (fun m tx =>
          tx.vout.enum.foldl (fun m p => pushEntry m tx.id p) m) m) key = lookupA m key := by
  intro txs
  induction txs with
  | nil => intro m _; rfl
  | cons tx txs ih =>
    intro m h
    rw [List.foldl_cons, ih _ (fun u hu => h u (List.mem_cons_of_mem tx hu)),
      lookupA_pushFold_ne tx.id key (h tx (List.mem_cons_self tx txs))]

theorem addFold_self (pre post : List Transaction) (t : Transaction) (m : UtxoIdx)
    (key : String) (ht : t.id = key)
    (hpre : ∀ u ∈ pre, u.id ≠ key) (hpost : ∀ u ∈ post, u.id ≠ key)
    (hm : lookupA m key = none) :
    lookupA (((pre ++ t :: post).foldl (fun m tx =>
        tx.vout.enum.foldl (fun m p => pushEntry m tx.id p) m) m)) key
      = optAppend none t.vout.enum := by
  rw [List.foldl_append, List.foldl_cons,
    addFold_ne key post _ hpost, ht, lookupA_pushFold_self key,
    addFold_ne key pre m hpre, hm]

theorem nodupKeys_pushFold {β : Type} (k : String) :
    ∀ (xs : List β) (m : List (String × List β)), nodupKeys m →
      nodupKeys (xs.foldl (fun m x => pushEntry m k x) m) := by
  intro xs
  induction xs with
  | nil => intro m h; exact h
  | cons x xs ih =>
    intro m h
    rw [List.foldl_cons]
    exact ih _ (nodupKeys_pushEntry m k x h)

theorem nodupKeys_addFold :
    ∀ (txs : List Transaction) (m : UtxoIdx), nodupKeys m →
      nodupKeys (txs.foldl (fun m tx =>
        tx.vout.enum.foldl (fun m p => pushEntry m tx.id p) m) m) := by
  intro txs
  induction txs with
  | nil => intro m h; exact h
  | cons tx txs ih =>
    intro m h
    rw [List.foldl_cons]
    exact ih _ (nodupKeys_pushFold tx.id tx.vout.enum m h)

theorem backRefs_split :
    ∀ (l1 : List Block) (c : Block) (l2 : List Block),
      backRefsOnly (l1 ++ c :: l2) = true →
      ∀ r ∈ blockRefs c, r.1 ∉ chainIds (c :: l2) := by
  intro l1
  induction l1 with
  | nil =>
    intro c l2 h
    exact (backRefsOnly_head c l2 h).1
  | cons d l1 ih =>
    intro c l2 h
    rw [List.cons_append] at h
    exact ih c l2 (backRefsOnly_head d (l1 ++ c :: l2) h).2

theorem backRefsOnly_append_left :
    ∀ (xs : List Block) (b : Block), backRefsOnly (xs ++ [b]) = true →
      backRefsOnly xs = true := by
  intro xs
  induction xs with
  | nil => intro b _; rfl
  | cons c cs ih =>
    intro b h
    rw [List.cons_append] at h
    obtain ⟨h1, h2⟩ := backRefsOnly_head c (cs ++ [b]) h
    rw [backRefsOnly, Bool.and_eq_true]
    refine ⟨?_, ih b h2⟩
    rw [List.all_eq_true]
    intro r hr
    have hnot := h1 r hr
    have hnot' : r.1 ∉ chainIds (c :: cs) := by
      intro hm
      refine hnot ?_
      rw [chainIds_cons] at hm ⊢
      rcases List.mem_append.mp hm with h' | h'
      · exact List.mem_append.mpr (Or.inl h')
      · refine List.mem_append.mpr (Or.inr ?_)
        rw [chainIds_append]
        exact List.mem_append.mpr (Or.inl h')
    simpa using hnot'

theorem uniqueIds_append_left (xs ys : List Block) (h : UniqueIds (xs ++ ys)) :
    UniqueIds xs := by
  rw [UniqueIds, chainIds_append] at h
  rw [UniqueIds]
  exact h.of_append_left

theorem applyAll_append (xs : List Block) (b : Block) :
    applyAll (xs ++ [b]) = applyBlock (applyAll xs) b := by
  rw [applyAll, applyAll, List.foldl_append]
  rfl

theorem applyBlock_eq (m : UtxoIdx) (b : Block) :
    applyBlock m b = b.transactions.foldl (fun m tx =>
        tx.vout.enum.foldl (fun m p => pushEntry m tx.id p) m)
      (b.transactions.foldl (fun m tx => if tx.is_coinbase then m
        else tx.vin.foldl (fun m i => removeRef m i.txid i.vout) m) m) := rfl

theorem applyAll_char :
    ∀ (chain : List Block), UniqueIds chain → backRefsOnly chain = true →
      nodupKeys (applyAll chain) ∧
      ∀ key, lookupA (applyAll chain) key = mkEntryIdx chain key := by
  intro chain
  induction chain using List.reverseRecOn with
  | nil =>
    intro _ _
    constructor
    · show nodupKeys ([] : UtxoIdx)
      simp [nodupKeys]
    · intro key
      rw [mkEntryIdx_of_find?_none [] key (by rw [chainTxs]; rfl)]
      rfl
  | append_singleton xs b ih =>
    intro hU hB
    have hUxs : UniqueIds xs := uniqueIds_append_left xs [b] hU
    have hBxs : backRefsOnly xs = true := backRefsOnly_append_left xs b hB
    obtain ⟨ihnd, ihchar⟩ := ih hUxs hBxs
    have hnd1 : nodupKeys (b.transactions.foldl (fun m tx => if tx.is_coinbase then m
        else tx.vin.foldl (fun m i => removeRef m i.txid i.vout) m) (applyAll xs)) :=
      nodupKeys_removalsFold b.transactions (applyAll xs) ihnd
    rw [applyAll_append, applyBlock_eq]
    have hdisj : ∀ k, k ∈ b.transactions.map (fun t => t.id) → k ∉ chainIds xs := by
      intro k hkb hkxs
      have h := hU
      rw [UniqueIds, chainIds_append, chainIds_single] at h
      exact (List.disjoint_of_nodup_append h) hkxs hkb
    refine ⟨nodupKeys_addFold b.transactions _ hnd1, ?_⟩
    intro key
    by_cases hkb : key ∈ b.transactions.map (fun t => t.id)
    · -- the owning transaction is in the appended block b
      obtain ⟨t0, ht0mem, ht0id⟩ := List.mem_map.mp hkb
      obtain ⟨pre, post, hsplit⟩ := List.append_of_mem ht0mem
      have hkxs : key ∉ chainIds xs := hdisj key hkb
      have hUb : (b.transactions.map (fun t => t.id)).Nodup := by
        have h := hU
        rw [UniqueIds, chainIds_append, chainIds_single] at h
        exact h.of_append_right
      have hnodb' : ((pre.map (fun t => t.id)) ++ t0.id :: (post.map (fun t => t.id))).Nodup := by
        rw [hsplit] at hUb
        simpa using hUb
      have hmid := List.nodup_middle.mp hnodb'
      rw [List.nodup_cons] at hmid
      have hpre : ∀ u ∈ pre, u.id ≠ key := by
        intro u hu hEq
        exact hmid.1 (List.mem_append.mpr (Or.inl (List.mem_map.mpr ⟨u, hu, by rw [hEq, ht0id]⟩)))
      have hpost : ∀ u ∈ post, u.id ≠ key := by
        intro u hu hEq
        exact hmid.1 (List.mem_append.mpr (Or.inr (List.mem_map.mpr ⟨u, hu, by rw [hEq, ht0id]⟩)))
      -- the entry is absent before b is applied
      have hm0 : lookupA (applyAll xs) key = none := by
        rw [ihchar key, mkEntryIdx_of_find?_none xs key]
        refine find?_id_eq_none key (chainTxs xs) ?_
        intro t ht hEq
        exact hkxs (by rw [chainIds]; exact List.mem_map.mpr ⟨t, ht, hEq⟩)
      have hm1 : lookupA (b.transactions.foldl (fun m tx => if tx.is_coinbase then m
          else tx.vin.foldl (fun m i => removeRef m i.txid i.vout) m) (applyAll xs)) key
          = none := by
        rw [removalsFold_lookup key b.transactions (applyAll xs) ihnd, hm0, foldl_remStep_none]
      rw [hsplit] at hm1
      rw [hsplit, addFold_self pre post t0 _ key ht0id hpre hpost hm1]
      -- right-hand side: the entry is the full enumerated output list, nothing spent
      have hfind : (chainTxs (xs ++ [b])).find? (fun t => t.id == key) = some t0 := by
        rw [chainTxs_append, chainTxs_single, hsplit]
        have h1 : (chainTxs xs ++ pre).find? (fun t => t.id == key) = none := by
          rw [find?_append_none _ (chainTxs xs) pre]
          · exact find?_id_eq_none key pre hpre
          · refine find?_id_eq_none key (chainTxs xs) ?_
            intro t ht hEq
            exact hkxs (by rw [chainIds]; exact List.mem_map.mpr ⟨t, ht, hEq⟩)
        rw [← List.append_assoc, find?_append_none _ _ _ h1,
          List.find?_cons_of_pos _ (by simp [ht0id])]
      have hnorefs : refsAt (chainRefs (xs ++ [b])) key = [] := by
        rw [refsAt]
        rw [List.filterMap_eq_nil_iff]
        intro r hr
        have hrk : r.1 ≠ key := by
          rw [chainRefs_append, chainRefs_single, List.mem_append] at hr
          have hkeyb : key ∈ chainIds [b] := by rw [chainIds_single]; exact hkb
          rcases hr with hxs | hb
          · rcases List.mem_flatMap.mp hxs with ⟨c, hc, hrc⟩
            obtain ⟨l1, l2, hxs_split⟩ := List.append_of_mem hc
            have hchain : xs ++ [b] = l1 ++ c :: (l2 ++ [b]) := by
              rw [hxs_split]; simp
            have havoid := backRefs_split l1 c (l2 ++ [b]) (hchain ▸ hB) r hrc
            intro hEq
            refine havoid ?_
            rw [hEq, chainIds_cons, chainIds_append]
            exact List.mem_append.mpr (Or.inr (List.mem_append.mpr (Or.inr hkeyb)))
          · have havoid := backRefs_split xs b [] hB r hb
            intro hEq
            refine havoid ?_
            rw [hEq, chainIds_cons]
            exact List.mem_append.mpr (Or.inl hkb)
        rw [if_neg hrk]
      rw [mkEntryIdx_of_find?_some (xs ++ [b]) key t0 hfind, hnorefs, entryF_nil]
    · -- key belongs to an earlier block (or to no block at all)
      have hne : ∀ t ∈ b.transactions, t.id ≠ key :=
        fun t ht h => hkb (List.mem_map.mpr ⟨t, ht, h⟩)
      have hbids : b.transactions.find? (fun t => t.id == key) = none :=
        find?_id_eq_none key b.transactions hne
      rw [addFold_ne key b.transactions _ hne,
        removalsFold_lookup key b.transactions (applyAll xs) ihnd, ihchar key]
      have hrefs_eq : refsAt (chainRefs (xs ++ [b])) key
          = refsAt (chainRefs xs) key ++ refsAt (blockRefs b) key := by
        rw [chainRefs_append, chainRefs_single, refsAt_append]
      cases hf : (chainTxs xs).find? (fun t => t.id == key) with
      | none =>
        rw [mkEntryIdx_of_find?_none xs key hf, foldl_remStep_none,
          mkEntryIdx_of_find?_none (xs ++ [b]) key]
        rw [chainTxs_append, chainTxs_single, find?_append_none _ _ _ hf]
        exact hbids
      | some t =>
        have hfindc : (chainTxs (xs ++ [b])).find? (fun t => t.id == key) = some t := by
          rw [chainTxs_append, chainTxs_single]
          exact find?_append_some _ (chainTxs xs) b.transactions t hf
        rw [mkEntryIdx_of_find?_some xs key t hf,
          mkEntryIdx_of_find?_some (xs ++ [b]) key t hfindc,
          foldl_remStep_entryF, hrefs_eq]
        have hrefs_b : refsAt (b.transactions.flatMap txRefs) key = refsAt (blockRefs b) key := by
          rw [blockRefs]
        rw [hrefs_b]

/-! ## Claim C3: full rebuild equals incremental application -/

/-- C3: for every chain state (transaction ids distinct, references pointing
only to earlier blocks — both invariants of every chain this program builds),
the UTXO index produced by the full rebuild scan of `find_utxo` equals, entry
by entry, the index obtained from an empty index by applying the §4.4
incremental per-block update to every block in forward genesis-to-tip order
(after forgetting the per-output index tags the incremental form carries). -/
theorem c3_rebuild_eq_incremental (chain : List Block)
    (hU : UniqueIds chain) (hB : backRefsOnly chain = true) :
    ∀ key, lookupA (findUtxo chain) key = stripIdx (lookupA (applyAll chain) key) := by
  intro key
  rw [findUtxo_char chain hU hB key, (applyAll_char chain hU hB).2 key]

/-- C3 witness: the two-block chain `chainW` (a genesis coinbase, then a reward
coinbase plus a transfer spending the genesis output). -/
theorem c3_witness :
    lookupA (findUtxo chainW) "cb" = stripIdx (lookupA (applyAll chainW) "cb") ∧
    lookupA (findUtxo chainW) "t1" = stripIdx (lookupA (applyAll chainW) "t1") :=
  ⟨c3_rebuild_eq_incremental chainW (by unfold UniqueIds; decide) (by decide) "cb",
   c3_rebuild_eq_incremental chainW (by unfold UniqueIds; decide) (by decide) "t1"⟩

/-! ## Claim C7: UTXO index membership invariant -/

theorem find?_id_self :
    ∀ (l : List Transaction) (tx : Transaction),
      (l.map (fun t => t.id)).Nodup → tx ∈ l →
      l.find? (fun u => u.id == tx.id) = some tx := by
  intro l
  induction l with
  | nil => intro tx _ h; simp at h
  | cons a l ih =>
    intro tx hnd h
    rw [List.map_cons, List.nodup_cons] at hnd
    rcases List.mem_cons.mp h with rfl | hl
    · rw [List.find?_cons_of_pos _ (by simp)]
    · by_cases ha : a.id = tx.id
      · exact absurd (ha ▸ List.mem_map.mpr ⟨tx, hl, rfl⟩) hnd.1
      · rw [List.find?_cons_of_neg _ (by simpa using ha)]
        exact ih tx hnd.2 hl

/-- C7: after a rebuild (the `find_utxo` scan) over any chain whose ids are
distinct and whose references point only to earlier blocks, the index entry of
each committed transaction consists exactly of those of its outputs whose
`(transaction id, output index)` pair is referenced by no non-coinbase input in
the chain — an output appears in the index iff it is unreferenced, and the
synthetic inputs of coinbase transactions never mark anything spent (they are
excluded from `chainRefs` by construction, mirroring the `is_coinbase` guard of
the source). -/
theorem c7_utxo_membership_invariant (chain : List Block)
    (hU : UniqueIds chain) (hB : backRefsOnly chain = true)
    (tx : Transaction) (htx : tx ∈ chainTxs chain) :
    lookupA (findUtxo chain) tx.id
      = (let l := tx.vout.enum.filter
            (fun p => !(decide ((tx.id, (p.1 : Int)) ∈ chainRefs chain)));
         if l.isEmpty then none else some (l.map Prod.snd)) := by
  rw [findUtxo_char chain hU hB tx.id]
  have hfind : (chainTxs chain).find? (fun u => u.id == tx.id) = some tx :=
    find?_id_self (chainTxs chain) tx hU htx
  rw [mkEntryIdx_of_find?_some chain tx.id tx hfind, stripIdx_entryF]
  have hfeq : tx.vout.enum.filter
        (fun p => !(decide ((p.1 : Int) ∈ refsAt (chainRefs chain) tx.id)))
      = tx.vout.enum.filter
        (fun p => !(decide ((tx.id, (p.1 : Int)) ∈ chainRefs chain))) := by
    refine List.filter_congr ?_
    intro p hp
    rw [decide_eq_decide.mpr (mem_refsAt (chainRefs chain) tx.id (p.1 : Int))]
  rw [hfeq]
  cases hl : tx.vout.enum.filter
      (fun p => !(decide ((tx.id, (p.1 : Int)) ∈ chainRefs chain))) with
  | nil => simp [optAppend]
  | cons q qs => simp [optAppend]

/-- C7 witness: in `chainW` the transfer `txT` spends output 0 of the genesis
coinbase, so the invariant instantiates concretely. -/
theorem c7_witness :
    lookupA (findUtxo chainW) txT.id
      = (let l := txT.vout.enum.filter
            (fun p => !(decide ((txT.id, (p.1 : Int)) ∈ chainRefs chainW)));
         if l.isEmpty then none else some (l.map Prod.snd)) :=
  c7_utxo_membership_invariant chainW (by unfold UniqueIds; decide) (by decide)
    txT (by decide)
